import Mathlib

/-!
Verification development for the columnar objects-data core
(`catboost/libs/data_new/objects.cpp`).

The C++ source is shallowly embedded: group identifiers (`TGroupId`,
a `ui64` hash) are `Nat`; byte streams written through `IBinSaver` are
`List Nat` with every entry `< 256`; machine words (`ui64`) are `Nat`;
fallible code returns `Except CBError`.  `CB_ENSURE` failures are
modelled as `CBError.validation`, `CB_ENSURE_INTERNAL` failures as
`CBError.internalError`, and an exhausted input stream as
`CBError.streamEnd`.
-/

/-- Error kinds of the embedded code: `validation` models `CB_ENSURE`
(user-input validation errors), `internalError` models
`CB_ENSURE_INTERNAL` (internal-consistency errors), and `streamEnd`
models a failed read from the serialized stream. -/
inductive CBError where
  | validation (msg : String) : CBError
  | internalError (msg : String) : CBError
  | streamEnd : CBError
  deriving DecidableEq, Repr

/-- Group bounds `(Begin, End)` — a half-open interval of row positions,
modelling `TGroupBounds`. -/
abbrev TGroupBounds := Nat × Nat

/-- Modelled from the spec: `TObjectsGrouping`
(`catboost/libs/data_new/objects_grouping.h` is not under `src/`).
Per spec §3 a grouping is either trivial (each row its own group) or an
ordered sequence of half-open `(start, end)` bounds. -/
inductive TObjectsGrouping where
  | trivialG (objectCount : Nat) : TObjectsGrouping
  | explicitG (bounds : List TGroupBounds) : TObjectsGrouping
  deriving DecidableEq, Repr

/-- Modelled from the spec: `TObjectsGrouping::GetObjectCount` — the
total number of rows covered by the grouping (bounds are contiguous and
cover `[0, objectCount)`, so for an explicit grouping it is the last
group's `End`). -/
def getObjectCount : TObjectsGrouping → Nat
  | .trivialG n => n
  | .explicitG bs => (bs.getLastD (0, 0)).2

/-- Modelled from the spec: `TObjectsGrouping::GetGroup(groupIdx)` —
bounds lookup for one group, failing (validation error) when the index
is out of range. -/
def getGroup : TObjectsGrouping → Nat → Except CBError TGroupBounds
  | .trivialG n, i => if i < n then .ok (i, i + 1) else .error (.validation "group index is out of range")
  | .explicitG bs, i =>
      if h : i < bs.length then .ok bs[i] else .error (.validation "group index is out of range")

/-- The scan loop of `NCB::CreateObjectsGroupingFromGroupIds`
(objects.cpp lines 89-102): processes the remaining group ids `xs`,
where `i` is the index of the head of `xs`, `b` is `lastGroupBegin` and
`last` is `lastGroupId`.  Returns the accumulated `groupBounds`
(including the final `(lastGroupBegin, size)` bound pushed after the
loop) and the tail of `groupGroupIds` recorded at value changes. -/
def scanGroups : List Nat → Nat → Nat → Nat → List TGroupBounds × List Nat
  | [], i, b, _ => ([(b, i)], [])
  | x :: xs, i, b, last =>
    if x ≠ last then
      let s := scanGroups xs (i + 1) i x
      ((b, i) :: s.1, x :: s.2)
    else
      scanGroups xs (i + 1) b last

/-- The `Sort` + `std::adjacent_find` duplicate test of objects.cpp
lines 105-107 (and 68-70): `true` iff the list has two equal adjacent
elements. -/
def hasAdjacentDup : List Nat → Bool
  | [] => false
  | [_] => false
  | x :: y :: rest => x == y || hasAdjacentDup (y :: rest)

/-- `NCB::CreateObjectsGroupingFromGroupIds` (objects.cpp lines 74-111).
Absent group ids give the trivial grouping; otherwise the sequence is
scanned for runs of equal consecutive values, and the distinct values
recorded at run starts are sorted and checked for duplicates.  The
source reads `groupIdsData[0]` unconditionally, which is undefined for
an empty array; the empty case is modelled as a validation error. -/
def CreateObjectsGroupingFromGroupIds (objectCount : Nat) (groupIds : Option (List Nat)) :
    Except CBError TObjectsGrouping :=
  match groupIds with
  | none => .ok (.trivialG objectCount)
  | some g =>
    if g.length ≠ objectCount then .error (.validation "group Ids data size mismatch")
    else
      match g with
      | [] => .error (.validation "empty group Ids")
      | g0 :: rest =>
        let s := scanGroups rest 1 0 g0
        let groupGroupIds := g0 :: s.2
        if hasAdjacentDup (List.insertionSort (· ≤ ·) groupGroupIds) then
          .error (.validation "group Ids are not consecutive")
        else
          .ok (.explicitG s.1)

/-! ### Run decomposition (specification-side notions)

To state the claims about maximal runs we decompose a list into its
maximal runs of equal consecutive values.  These definitions are the
mathematical notion of "run" used by the spec, not an embedding of any
source function. -/

/-- Splits the longest head run of value `x` off the list: returns the
(possibly empty) run of copies of `x` and the remaining suffix, whose
head (if any) differs from `x`. -/
def takeRun (x : Nat) : List Nat → List Nat × List Nat
  | [] => ([], [])
  | y :: ys => if y = x then
      let s := takeRun x ys
      (y :: s.1, s.2)
    else ([], y :: ys)

theorem takeRun_rest_length (x : Nat) : ∀ xs : List Nat, (takeRun x xs).2.length ≤ xs.length := by
  intro xs
  induction xs with
  | nil => simp [takeRun]
  | cons y ys ih =>
    by_cases h : y = x
    · simp only [takeRun, if_pos h]
      exact Nat.le_succ_of_le ih
    · simp [takeRun, if_neg h]

/-- Helper of `splitRuns`: the current run has value `v` and `count`
elements seen so far. -/
def splitRunsAux (v count : Nat) : List Nat → List (Nat × Nat)
  | [] => [(v, count)]
  | x :: xs => if x = v then splitRunsAux v (count + 1) xs else (v, count) :: splitRunsAux x 1 xs

/-- The maximal runs of a list, each as `(value, length)`; lengths are
positive and adjacent run values differ. -/
def splitRuns : List Nat → List (Nat × Nat)
  | [] => []
  | x :: xs => splitRunsAux x 1 xs

/-- Half-open bounds of a sequence of runs laid out contiguously from
`start`. -/
def runBoundsFrom (start : Nat) : List (Nat × Nat) → List TGroupBounds
  | [] => []
  | (_, len) :: rest => (start, start + len) :: runBoundsFrom (start + len) rest

/-- The ends of the contiguous layout of the given runs. -/
def runEndsFrom (start : Nat) (rs : List (Nat × Nat)) : List Nat :=
  (runBoundsFrom start rs).map Prod.snd

/-- Expands `(value, length)` runs back into the flat list. -/
def flattenRuns : List (Nat × Nat) → List Nat
  | [] => []
  | (v, len) :: rest => List.replicate len v ++ flattenRuns rest

/-- Decides that `bs` is a contiguous in-order partition of
`[start, n)` into nonempty half-open intervals. -/
def isContiguousPartition (n : Nat) (start : Nat) : List TGroupBounds → Bool
  | [] => start == n
  | (b, e) :: rest => b == start && b < e && isContiguousPartition n e rest

/-! ### Basic facts about `takeRun` and `splitRuns` -/

theorem takeRun_append (x : Nat) : ∀ xs : List Nat, (takeRun x xs).1 ++ (takeRun x xs).2 = xs := by
  intro xs
  induction xs with
  | nil => simp [takeRun]
  | cons y ys ih =>
    by_cases h : y = x
    · simp only [takeRun, if_pos h, List.cons_append]
      rw [ih]
    · simp [takeRun, if_neg h]

theorem takeRun_mem (x : Nat) : ∀ xs : List Nat, ∀ y ∈ (takeRun x xs).1, y = x := by
  intro xs
  induction xs with
  | nil => simp [takeRun]
  | cons y ys ih =>
    by_cases h : y = x
    · simp only [takeRun, if_pos h, List.mem_cons]
      rintro z (rfl | hz)
      · exact h
      · exact ih z hz
    · simp [takeRun, if_neg h]

theorem takeRun_head_ne (x : Nat) :
    ∀ xs : List Nat, ∀ z zs, (takeRun x xs).2 = z :: zs → z ≠ x := by
  intro xs
  induction xs with
  | nil => simp [takeRun]
  | cons y ys ih =>
    by_cases h : y = x
    · simp only [takeRun, if_pos h]
      exact ih
    · simp only [takeRun, if_neg h]
      rintro z zs ⟨rfl, rfl⟩
      exact h

theorem takeRun_replicate_eq (x : Nat) : ∀ m : Nat, ∀ t : List Nat,
    takeRun x (List.replicate m x ++ t) = (List.replicate m x ++ (takeRun x t).1, (takeRun x t).2) := by
  intro m
  induction m with
  | zero => intro t; simp
  | succ k ih =>
    intro t
    simp [List.replicate_succ, takeRun, ih t]

theorem takeRun_of_head_ne (x : Nat) (z : Nat) (zs : List Nat) (h : z ≠ x) :
    takeRun x (z :: zs) = ([], z :: zs) := by
  simp [takeRun, h]

/-- `takeRun x xs` is all of `xs` written as a replicate. -/
theorem takeRun_fst_eq_replicate (x : Nat) (xs : List Nat) :
    (takeRun x xs).1 = List.replicate (takeRun x xs).1.length x :=
  List.eq_replicate_of_mem (takeRun_mem x xs)

theorem splitRunsAux_eq (v c : Nat) : ∀ xs : List Nat,
    splitRunsAux v c xs = (v, c + (takeRun v xs).1.length) :: splitRuns (takeRun v xs).2 := by
  intro xs
  induction xs generalizing v c with
  | nil => simp [splitRunsAux, takeRun, splitRuns]
  | cons x xs ih =>
    by_cases h : x = v
    · subst h
      rw [splitRunsAux, if_pos rfl, ih]
      have htr : takeRun x (x :: xs) = (x :: (takeRun x xs).1, (takeRun x xs).2) := by
        simp [takeRun]
      rw [htr]
      simp only [List.length_cons]
      have harith : c + 1 + (takeRun x xs).1.length = c + ((takeRun x xs).1.length + 1) := by
        omega
      rw [harith]
    · rw [splitRunsAux, if_neg h, takeRun_of_head_ne v x xs h]
      simp [splitRuns]

/-- Unfolding of `splitRuns` on a cons in terms of `takeRun`. -/
theorem splitRuns_cons (x : Nat) (xs : List Nat) :
    splitRuns (x :: xs) = (x, (takeRun x xs).1.length + 1) :: splitRuns (takeRun x xs).2 := by
  rw [splitRuns, splitRunsAux_eq]
  have harith : 1 + (takeRun x xs).1.length = (takeRun x xs).1.length + 1 := by omega
  rw [harith]


theorem splitRuns_flatten_bounded : ∀ (n : Nat) (l : List Nat), l.length ≤ n →
    flattenRuns (splitRuns l) = l := by
  intro n
  induction n with
  | zero =>
    intro l hl
    have hnil : l = [] := List.length_eq_zero.mp (Nat.le_zero.mp hl)
    subst hnil
    simp [splitRuns, flattenRuns]
  | succ n ih =>
    intro l hl
    match l with
    | [] => simp [splitRuns, flattenRuns]
    | x :: xs =>
      rw [splitRuns_cons, flattenRuns, List.replicate_succ]
      have hrec := ih (takeRun x xs).2 (by
        have := takeRun_rest_length x xs
        simp only [List.length_cons] at hl
        omega)
      rw [hrec, List.cons_append]
      congr 1
      conv_rhs => rw [← takeRun_append x xs]
      congr 1
      exact (takeRun_fst_eq_replicate x xs).symm

theorem splitRuns_flatten (l : List Nat) : flattenRuns (splitRuns l) = l :=
  splitRuns_flatten_bounded l.length l le_rfl

theorem splitRuns_pos_len_bounded : ∀ (n : Nat) (l : List Nat), l.length ≤ n →
    ∀ p ∈ splitRuns l, 0 < p.2 := by
  intro n
  induction n with
  | zero =>
    intro l hl
    have hnil : l = [] := List.length_eq_zero.mp (Nat.le_zero.mp hl)
    subst hnil
    simp [splitRuns]
  | succ n ih =>
    intro l hl
    match l with
    | [] => simp [splitRuns]
    | x :: xs =>
      rw [splitRuns_cons]
      intro p hp
      rcases List.mem_cons.mp hp with rfl | hp'
      · simp
      · refine ih (takeRun x xs).2 ?_ p hp'
        have := takeRun_rest_length x xs
        simp only [List.length_cons] at hl
        omega

theorem splitRuns_pos_len (l : List Nat) : ∀ p ∈ splitRuns l, 0 < p.2 :=
  splitRuns_pos_len_bounded l.length l le_rfl

theorem flattenRuns_length : ∀ rs : List (Nat × Nat),
    (flattenRuns rs).length = (rs.map Prod.snd).sum := by
  intro rs
  induction rs with
  | nil => simp [flattenRuns]
  | cons p rest ih =>
    obtain ⟨v, len⟩ := p
    simp [flattenRuns, ih]

theorem splitRuns_total_length (l : List Nat) :
    ((splitRuns l).map Prod.snd).sum = l.length := by
  rw [← flattenRuns_length, splitRuns_flatten]

theorem splitRuns_chain_ne_bounded : ∀ (n : Nat) (l : List Nat), l.length ≤ n →
    List.Chain' (fun p q : Nat × Nat => p.1 ≠ q.1) (splitRuns l) := by
  intro n
  induction n with
  | zero =>
    intro l hl
    have hnil : l = [] := List.length_eq_zero.mp (Nat.le_zero.mp hl)
    subst hnil
    simp [splitRuns]
  | succ n ih =>
    intro l hl
    match l with
    | [] => simp [splitRuns]
    | x :: xs =>
      rw [splitRuns_cons]
      have hrest_le : (takeRun x xs).2.length ≤ n := by
        have := takeRun_rest_length x xs
        simp only [List.length_cons] at hl
        omega
      rcases hrest : (takeRun x xs).2 with _ | ⟨z, zs⟩
      · simp [splitRuns]
      · rw [List.chain'_cons']
        constructor
        · intro q hq
          rw [splitRuns_cons] at hq
          simp only [List.head?_cons, Option.mem_def, Option.some.injEq] at hq
          subst hq
          exact fun hc => takeRun_head_ne x xs z zs hrest (by simpa using hc.symm)
        · exact hrest ▸ ih (takeRun x xs).2 hrest_le

/-- Adjacent maximal runs carry different values. -/
theorem splitRuns_chain_ne (l : List Nat) :
    List.Chain' (fun p q : Nat × Nat => p.1 ≠ q.1) (splitRuns l) :=
  splitRuns_chain_ne_bounded l.length l le_rfl

/-! ### The scan loop computes exactly the maximal-run decomposition -/

theorem scanGroups_eq : ∀ (xs : List Nat) (i b last : Nat),
    scanGroups xs i b last =
      ((b, i + (takeRun last xs).1.length) ::
          runBoundsFrom (i + (takeRun last xs).1.length) (splitRuns (takeRun last xs).2),
        (splitRuns (takeRun last xs).2).map Prod.fst) := by
  intro xs
  induction xs with
  | nil =>
    intro i b last
    simp [scanGroups, takeRun, runBoundsFrom, splitRuns]
  | cons x xs ih =>
    intro i b last
    by_cases h : x = last
    · subst h
      have hx : scanGroups (x :: xs) i b x = scanGroups xs (i + 1) b x := by
        simp [scanGroups]
      have htr : takeRun x (x :: xs) = (x :: (takeRun x xs).1, (takeRun x xs).2) := by
        simp [takeRun]
      rw [hx, ih, htr]
      have harith : i + 1 + (takeRun x xs).1.length = i + (x :: (takeRun x xs).1).length := by
        simp only [List.length_cons]
        omega
      rw [harith]
    · have hx : scanGroups (x :: xs) i b last =
          ((b, i) :: (scanGroups xs (i + 1) i x).1, x :: (scanGroups xs (i + 1) i x).2) := by
        simp [scanGroups, h]
      rw [hx, ih, takeRun_of_head_ne last x xs h, splitRuns_cons]
      simp only [List.length_nil, Nat.add_zero, runBoundsFrom, List.map_cons]
      have harith : i + 1 + (takeRun x xs).1.length = i + ((takeRun x xs).1.length + 1) := by
        omega
      rw [harith]

theorem runBoundsFrom_length : ∀ (rs : List (Nat × Nat)) (start : Nat),
    (runBoundsFrom start rs).length = rs.length := by
  intro rs
  induction rs with
  | nil => intro start; simp [runBoundsFrom]
  | cons p rest ih =>
    intro start
    obtain ⟨v, len⟩ := p
    simp [runBoundsFrom, ih]

theorem runBoundsFrom_getD : ∀ (rs : List (Nat × Nat)) (start i : Nat), i < rs.length →
    (runBoundsFrom start rs).getD i (0, 0) =
      (start + ((rs.take i).map Prod.snd).sum, start + ((rs.take (i + 1)).map Prod.snd).sum) := by
  intro rs
  induction rs with
  | nil => intro start i h; simp at h
  | cons p rest ih =>
    intro start i h
    obtain ⟨v, len⟩ := p
    match i with
    | 0 => simp [runBoundsFrom]
    | Nat.succ i' =>
      have h' : i' < rest.length := by simpa using h
      rw [runBoundsFrom]
      show (runBoundsFrom (start + len) rest).getD i' (0, 0) = _
      rw [ih (start + len) i' h']
      simp only [List.take_succ_cons, List.map_cons, List.sum_cons, Prod.mk.injEq]
      constructor <;> omega

theorem runBoundsFrom_partition : ∀ (rs : List (Nat × Nat)) (start : Nat),
    (∀ p ∈ rs, 0 < p.2) →
    isContiguousPartition (start + (rs.map Prod.snd).sum) start (runBoundsFrom start rs) = true := by
  intro rs
  induction rs with
  | nil => intro start _; simp [runBoundsFrom, isContiguousPartition]
  | cons p rest ih =>
    intro start hpos
    obtain ⟨v, len⟩ := p
    have hlen : 0 < len := hpos (v, len) (List.mem_cons_self _ _)
    rw [runBoundsFrom, isContiguousPartition]
    have h1 : start + (((v, len) :: rest).map Prod.snd).sum =
        (start + len) + (rest.map Prod.snd).sum := by
      simp only [List.map_cons, List.sum_cons]
      omega
    rw [h1]
    have h2 := ih (start + len) (fun p hp => hpos p (List.mem_cons_of_mem _ hp))
    simp [h2, hlen]

theorem flattenRuns_getD : ∀ (rs : List (Nat × Nat)) (i j : Nat), i < rs.length →
    ((rs.take i).map Prod.snd).sum ≤ j → j < ((rs.take (i + 1)).map Prod.snd).sum →
    (flattenRuns rs).getD j 0 = (rs.getD i (0, 0)).1 := by
  intro rs
  induction rs with
  | nil => intro i j h; simp at h
  | cons p rest ih =>
    intro i j hi hlo hhi
    obtain ⟨v, len⟩ := p
    match i with
    | 0 =>
      simp only [List.take_succ_cons, List.take_zero, List.map_nil, List.sum_nil,
        List.map_cons, List.sum_cons, List.take_nil, Nat.zero_le] at hlo hhi
      have hj : j < len := by
        simpa using hhi
      rw [flattenRuns, List.getD_append _ _ _ _ (by simpa using hj)]
      have hrep : (List.replicate len v).getD j 0 = v := by
        rw [List.getD_eq_getElem _ _ (by simpa using hj)]
        simp
      rw [hrep]
      simp
    | Nat.succ i' =>
      have hi' : i' < rest.length := by simpa using hi
      simp only [List.take_succ_cons, List.map_cons, List.sum_cons] at hlo hhi
      have hjlen : len ≤ j := le_trans (Nat.le_add_right _ _) hlo
      rw [flattenRuns, List.getD_append_right _ _ _ _ (by simpa using hjlen)]
      simp only [List.length_replicate]
      have := ih i' (j - len) hi' (by omega) (by omega)
      rw [this]
      simp

/-! ### Sorted duplicate detection decides `Nodup` -/

theorem sorted_hasAdjacentDup (l : List Nat) (hs : List.Sorted (· ≤ ·) l) :
    hasAdjacentDup l = false ↔ l.Nodup := by
  induction l using hasAdjacentDup.induct with
  | case1 => simp [hasAdjacentDup]
  | case2 x => simp [hasAdjacentDup]
  | case3 x y rest ih =>
    rw [List.sorted_cons] at hs
    obtain ⟨hx, hs'⟩ := hs
    rw [hasAdjacentDup]
    simp only [Bool.or_eq_false_iff, beq_eq_false_iff_ne, ne_eq]
    rw [ih hs']
    constructor
    · rintro ⟨hxy, hnd⟩
      refine List.nodup_cons.mpr ⟨?_, hnd⟩
      intro hmem
      rcases List.mem_cons.mp hmem with rfl | hmem'
      · exact hxy rfl
      · have hxy' : x < y := lt_of_le_of_ne (hx y (List.mem_cons_self y rest)) hxy
        have hyx : y ≤ x := (List.sorted_cons.mp hs').1 x hmem'
        omega
    · intro hnd
      obtain ⟨hxmem, hnd'⟩ := List.nodup_cons.mp hnd
      exact ⟨fun h => hxmem (h ▸ List.mem_cons_self y rest), hnd'⟩

theorem insertionSort_hasAdjacentDup (l : List Nat) :
    hasAdjacentDup (List.insertionSort (· ≤ ·) l) = false ↔ l.Nodup := by
  rw [sorted_hasAdjacentDup _ (List.sorted_insertionSort (· ≤ ·) l)]
  exact (List.perm_insertionSort (· ≤ ·) l).nodup_iff

/-- Unfolding of `CreateObjectsGroupingFromGroupIds` on a nonempty id
sequence: the scan produces exactly the maximal-run bounds and the run
values. -/
theorem createObjectsGrouping_run_form (g0 : Nat) (rest : List Nat) :
    CreateObjectsGroupingFromGroupIds (g0 :: rest).length (some (g0 :: rest)) =
      if hasAdjacentDup
          (List.insertionSort (· ≤ ·) ((splitRuns (g0 :: rest)).map Prod.fst)) then
        .error (.validation "group Ids are not consecutive")
      else
        .ok (.explicitG (runBoundsFrom 0 (splitRuns (g0 :: rest)))) := by
  have hscan := scanGroups_eq rest 1 0 g0
  simp only [CreateObjectsGroupingFromGroupIds, hscan, splitRuns_cons, List.map_cons, runBoundsFrom]
  have harith : (1 : Nat) + (takeRun g0 rest).1.length = 0 + ((takeRun g0 rest).1.length + 1) := by
    omega
  rw [harith]
  simp

/-- If no identifier value appears in two non-adjacent maximal runs, the
run values are pairwise distinct (adjacent maximal runs already differ). -/
theorem runValues_nodup (g : List Nat)
    (hnr : ∀ j, j < (splitRuns g).length → ∀ i, i < j →
      ((splitRuns g).getD i (0, 0)).1 = ((splitRuns g).getD j (0, 0)).1 → j = i + 1) :
    ((splitRuns g).map Prod.fst).Nodup := by
  rw [List.Nodup, List.pairwise_iff_getElem]
  intro i j hi hj hij
  simp only [List.getElem_map]
  intro heq
  have hlen : i < (splitRuns g).length := by simpa using hi
  have hlen' : j < (splitRuns g).length := by simpa using hj
  have hD : ((splitRuns g).getD i (0, 0)).1 = ((splitRuns g).getD j (0, 0)).1 := by
    rw [List.getD_eq_getElem _ (0, 0) hlen, List.getD_eq_getElem _ (0, 0) hlen']
    exact heq
  have hadj := hnr j hlen' i hij hD
  have hchain := splitRuns_chain_ne g
  rw [List.chain'_iff_get] at hchain
  have h2 := hchain i (by omega)
  simp only [List.get_eq_getElem] at h2
  subst hadj
  exact h2 heq

/-- C1: on a nonempty group-identifier sequence with `k` maximal runs of
equal consecutive values and no identifier reused across non-adjacent
runs, `CreateObjectsGroupingFromGroupIds` succeeds with exactly the `k`
run bounds: as many groups as runs, contiguous, in order, partitioning
`[0, n)`, and the `i`-th group covering exactly the positions of the
`i`-th run. -/
theorem createObjectsGroupingFromGroupIds_runs_partition (g : List Nat) (hne : g ≠ [])
    (hnr : ∀ j, j < (splitRuns g).length → ∀ i, i < j →
      ((splitRuns g).getD i (0, 0)).1 = ((splitRuns g).getD j (0, 0)).1 → j = i + 1) :
    CreateObjectsGroupingFromGroupIds g.length (some g) =
        .ok (.explicitG (runBoundsFrom 0 (splitRuns g)))
      ∧ (runBoundsFrom 0 (splitRuns g)).length = (splitRuns g).length
      ∧ isContiguousPartition g.length 0 (runBoundsFrom 0 (splitRuns g)) = true
      ∧ ∀ i, i < (splitRuns g).length → ∀ j,
          ((runBoundsFrom 0 (splitRuns g)).getD i (0, 0)).1 ≤ j →
          j < ((runBoundsFrom 0 (splitRuns g)).getD i (0, 0)).2 →
          g.getD j 0 = ((splitRuns g).getD i (0, 0)).1 := by
  have hnd := runValues_nodup g hnr
  obtain ⟨g0, rest, rfl⟩ : ∃ g0 rest, g = g0 :: rest := by
    cases g with
    | nil => exact absurd rfl hne
    | cons a l => exact ⟨a, l, rfl⟩
  refine ⟨?_, runBoundsFrom_length _ _, ?_, ?_⟩
  · have hfalse : hasAdjacentDup
        (List.insertionSort (· ≤ ·) ((splitRuns (g0 :: rest)).map Prod.fst)) = false :=
      (insertionSort_hasAdjacentDup _).mpr hnd
    rw [createObjectsGrouping_run_form, hfalse]
    simp
  · have hp := runBoundsFrom_partition (splitRuns (g0 :: rest)) 0 (splitRuns_pos_len _)
    rwa [Nat.zero_add, splitRuns_total_length] at hp
  · intro i hi j hlo hhi
    rw [runBoundsFrom_getD _ 0 i hi] at hlo hhi
    conv_lhs => rw [← splitRuns_flatten (g0 :: rest)]
    exact flattenRuns_getD _ i j hi (by simpa using hlo) (by simpa using hhi)

theorem createObjectsGroupingFromGroupIds_runs_partition_witness :
    CreateObjectsGroupingFromGroupIds ([3, 3, 5, 5, 9] : List Nat).length
        (some [3, 3, 5, 5, 9]) =
      .ok (.explicitG (runBoundsFrom 0 (splitRuns [3, 3, 5, 5, 9]))) :=
  (createObjectsGroupingFromGroupIds_runs_partition [3, 3, 5, 5, 9]
    (by decide) (by decide)).1

/-- C3: a group-identifier sequence in which the same identifier value
occurs in two non-adjacent maximal runs makes
`CreateObjectsGroupingFromGroupIds` fail with the "group Ids are not
consecutive" validation error (no silent merging of the runs). -/
theorem createObjectsGroupingFromGroupIds_nonconsecutive_error (g : List Nat) (hne : g ≠ [])
    (hdup : ∃ j, j < (splitRuns g).length ∧ ∃ i, i < j ∧ j ≠ i + 1 ∧
      ((splitRuns g).getD i (0, 0)).1 = ((splitRuns g).getD j (0, 0)).1) :
    CreateObjectsGroupingFromGroupIds g.length (some g) =
      .error (.validation "group Ids are not consecutive") := by
  obtain ⟨j, hj, i, hij, _, heq⟩ := hdup
  obtain ⟨g0, rest, rfl⟩ : ∃ g0 rest, g = g0 :: rest := by
    cases g with
    | nil => exact absurd rfl hne
    | cons a l => exact ⟨a, l, rfl⟩
  have hnotnd : ¬ ((splitRuns (g0 :: rest)).map Prod.fst).Nodup := by
    intro hnd
    rw [List.Nodup, List.pairwise_iff_getElem] at hnd
    have hi : i < (splitRuns (g0 :: rest)).length := by omega
    have hne' := hnd i j (by simpa using hi) (by simpa using hj) hij
    apply hne'
    simp only [List.getElem_map]
    rw [← List.getD_eq_getElem _ (0, 0) hi, ← List.getD_eq_getElem _ (0, 0) hj]
    exact heq
  have htrue : hasAdjacentDup
      (List.insertionSort (· ≤ ·) ((splitRuns (g0 :: rest)).map Prod.fst)) = true := by
    rcases Bool.eq_false_or_eq_true
        (hasAdjacentDup (List.insertionSort (· ≤ ·) ((splitRuns (g0 :: rest)).map Prod.fst)))
      with ht | hf
    · exact ht
    · exact absurd ((insertionSort_hasAdjacentDup _).mp hf) hnotnd
  rw [createObjectsGrouping_run_form, htrue]
  simp

theorem createObjectsGroupingFromGroupIds_nonconsecutive_error_witness :
    CreateObjectsGroupingFromGroupIds ([1, 1, 2, 2, 1, 1] : List Nat).length
        (some [1, 1, 2, 2, 1, 1]) =
      .error (.validation "group Ids are not consecutive") :=
  createObjectsGroupingFromGroupIds_nonconsecutive_error [1, 1, 2, 2, 1, 1]
    (by decide) (by decide)

/-! ### Objects order auto-promotion (`TObjectsDataProvider` constructor) -/

/-- `EObjectsOrder` from the source. -/
inductive EObjectsOrder where
  | Undefined : EObjectsOrder
  | Ordered : EObjectsOrder
  | RandomShuffled : EObjectsOrder
  deriving DecidableEq, Repr

/-- Model of `std::is_sorted` over the timestamps: no adjacent
descending pair. -/
def isSortedList : List Nat → Bool
  | [] => true
  | [_] => true
  | x :: y :: rest => x ≤ y && isSortedList (y :: rest)

/-- The order-promotion step at the end of the `NCB::TObjectsDataProvider`
constructor (objects.cpp lines 242-250): when the declared order is
`Undefined` and timestamps are present, with more than one object,
sorted timestamps and differing first/last timestamps, the stored order
becomes `Ordered`; in every other case it is left unchanged. -/
def objectsDataProviderOrder (order : EObjectsOrder) (timestamp : Option (List Nat))
    (objectCount : Nat) : EObjectsOrder :=
  match order, timestamp with
  | .Undefined, some ts =>
    if 1 < objectCount ∧ isSortedList ts = true ∧ ts.headD 0 ≠ ts.getLastD 0 then .Ordered
    else .Undefined
  | o, _ => o

theorem isSortedList_of_chain_lt (ts : List Nat) (h : List.Chain' (· < ·) ts) :
    isSortedList ts = true := by
  induction ts using isSortedList.induct with
  | case1 => simp [isSortedList]
  | case2 x => simp [isSortedList]
  | case3 x y rest ih =>
    rw [List.chain'_cons] at h
    rw [isSortedList]
    simp only [Bool.and_eq_true, decide_eq_true_eq]
    exact ⟨Nat.le_of_lt h.1, ih h.2⟩

theorem chainLt_lt_getLastD : ∀ (t : List Nat) (x d : Nat), List.Chain' (· < ·) (x :: t) →
    t ≠ [] → x < (x :: t).getLastD d := by
  intro t
  induction t with
  | nil => intro x d _ h; exact absurd rfl h
  | cons y t' ih =>
    intro x d hc _
    rw [List.chain'_cons] at hc
    rw [List.getLastD_cons]
    rcases t' with _ | ⟨z, t''⟩
    · simpa using hc.1
    · exact lt_trans hc.1 (ih y x hc.2 (by simp))

theorem getLastD_mem_cons : ∀ (t : List Nat) (x d : Nat), (x :: t).getLastD d ∈ x :: t := by
  intro t
  induction t with
  | nil => intro x d; simp [List.getLastD_cons]
  | cons y t' ih =>
    intro x d
    rw [List.getLastD_cons]
    exact List.mem_cons_of_mem x (ih y x)

/-- C4: when no explicit ordering tag is set (`Undefined`), a dataset
with at least 2 rows and strictly monotonically increasing timestamps
gets order `Ordered`; and with all-equal timestamps, no order value is
ever promoted (the order is returned unchanged). -/
theorem objectsDataProviderOrder_autoPromotion (n : Nat) (ts : List Nat)
    (hlen : ts.length = n) :
    (2 ≤ n → List.Chain' (· < ·) ts →
      objectsDataProviderOrder .Undefined (some ts) n = .Ordered)
    ∧ (∀ ord : EObjectsOrder, (∀ y ∈ ts, y = ts.headD 0) →
      objectsDataProviderOrder ord (some ts) n = ord) := by
  constructor
  · intro hn hch
    have hts2 : 2 ≤ ts.length := by omega
    have hsort := isSortedList_of_chain_lt ts hch
    have hlt : ts.headD 0 < ts.getLastD 0 := by
      rcases ts with _ | ⟨x, t⟩
      · simp at hts2
      · have htne : t ≠ [] := by
          intro h
          subst h
          simp at hts2
        exact chainLt_lt_getLastD t x 0 hch htne
    simp only [objectsDataProviderOrder]
    rw [if_pos ⟨by omega, hsort, Nat.ne_of_lt hlt⟩]
  · intro ord hall
    match ord with
    | .Ordered => rfl
    | .RandomShuffled => rfl
    | .Undefined =>
      have heq : ts.headD 0 = ts.getLastD 0 := by
        rcases ts with _ | ⟨x, t⟩
        · rfl
        · exact (hall _ (getLastD_mem_cons t x 0)).symm
      simp only [objectsDataProviderOrder]
      rw [if_neg (fun hcond => hcond.2.2 heq)]

theorem objectsDataProviderOrder_autoPromotion_witness :
    objectsDataProviderOrder .Undefined (some [1, 2]) 2 = .Ordered
    ∧ objectsDataProviderOrder .Undefined (some [5, 5]) 2 = .Undefined :=
  ⟨(objectsDataProviderOrder_autoPromotion 2 [1, 2] (by decide)).1 (by decide)
      (by simp [List.chain'_cons]),
   (objectsDataProviderOrder_autoPromotion 2 [5, 5] (by decide)).2 .Undefined (by decide)⟩

/-! ### Byte-level serialization of quantized feature columns

`IBinSaver` streams are byte lists; `SaveMulti` on a `ui32` writes its
4 little-endian bytes, `SaveRawData` writes the raw memory of the value
array, and `LoadMulti` on a `TVector<ui64>` reads a 4-byte count
followed by count*8 raw bytes reinterpreted as 64-bit words. -/

/-- A quantized feature column as seen through its external interface:
its flat feature id (`GetId()`) and its decoded per-row values
(`ExtractValues`, in row order). -/
structure TQuantColumn where
  id : Nat
  values : List Nat
  deriving DecidableEq, Repr

/-- Little-endian byte encoding of `v` in `w` bytes (the raw memory of
an unsigned integer written by `SaveRawData`). -/
def natToBytesLE : Nat → Nat → List Nat
  | 0, _ => []
  | w + 1, v => v % 256 :: natToBytesLE w (v / 256)

/-- Value of a little-endian byte list. -/
def bytesToNatLE : List Nat → Nat
  | [] => 0
  | b :: rest => b + 256 * bytesToNatLE rest

/-- The raw bytes of a list of `w`-byte values (`SaveRawData` on the
extracted values array). -/
def valuesBytes (w : Nat) (vs : List Nat) : List Nat :=
  (vs.map (natToBytesLE w)).join

/-- Four little-endian bytes of a `ui32` written by `SaveMulti`. -/
def u32Bytes (v : Nat) : List Nat := natToBytesLE 4 v

/-- Helper of `bytesToWordsLE` with an explicit structural fuel. -/
def bytesToWordsGo : Nat → List Nat → List Nat
  | _, [] => []
  | 0, _ :: _ => []
  | fuel + 1, b :: rest =>
    bytesToNatLE ((b :: rest).take 8) :: bytesToWordsGo fuel ((b :: rest).drop 8)

/-- Groups a byte stream into 8-byte little-endian `ui64` words — how the
storage of a deserialized `TVector<ui64>` reinterprets the raw bytes. -/
def bytesToWordsLE (l : List Nat) : List Nat := bytesToWordsGo l.length l

/-- Modelled from the spec: `TIndexHelper<ui64>::CompressedSize`
(catboost/libs/helpers/compression.h is not under `src/`): per spec §6,
the number of 8-byte words needed to hold `objectCount` values of
`bitsPerKey` bits each. -/
def compressedSize (bitsPerKey objectCount : Nat) : Nat :=
  (objectCount * bitsPerKey + 63) / 64

/-- Modelled from the spec: value extraction of `TCompressedArray`
(catboost/libs/helpers/compression.h is not under `src/`): per spec §3
a quantized column stores fixed-width bit-packed codes of `bitsPerKey`
bits; an integer number of codes is packed per 64-bit word, so value `i`
sits in word `i / e` at bit offset `(i % e) * bitsPerKey`, where
`e = 64 / bitsPerKey` is the number of entries per word. -/
def decodeValue (bitsPerKey : Nat) (words : List Nat) (i : Nat) : Nat :=
  words.getD (i / (64 / bitsPerKey)) 0 / 2 ^ (i % (64 / bitsPerKey) * bitsPerKey) % 2 ^ bitsPerKey

/-- All `objectCount` decoded values of a compressed storage. -/
def decodeValues (bitsPerKey objectCount : Nat) (words : List Nat) : List Nat :=
  (List.range objectCount).map (decodeValue bitsPerKey words)

/-- One feature record as emitted by `SaveFeatures` (objects.cpp lines
644-668): `(featureId, objectCount, bitsPerKey, compressedWordCount)` as
`ui32`s, then the raw bytes of the extracted values, then zero padding
up to `compressedWordCount` 8-byte words.  `w` is `bytesPerKey`, the
`sizeof` of one extracted value: 1 for `ui8` float codes, 4 for `ui32`
categorical codes, so `bitsPerKey = w * 8`. -/
def saveFeature (id : Nat) (w : Nat) (values : List Nat) : List Nat :=
  u32Bytes id ++ u32Bytes values.length ++ u32Bytes (w * 8) ++
    u32Bytes (compressedSize (w * 8) values.length) ++
    valuesBytes w values ++
    List.replicate (compressedSize (w * 8) values.length * 8 - w * values.length) 0

/-- `SaveFeatures` for one feature type (objects.cpp lines 635-670):
iterates the per-type features of the layout in order (each with its
availability flag and flat feature index) alongside the per-type column
list, emitting one record per available feature.  An available feature
with a null column would be a null dereference in the source (`Check`
forbids this state); it is modelled as emitting nothing. -/
def saveFeatures (w : Nat) : List (Bool × Nat) → List (Option TQuantColumn) → List Nat
  | (true, _) :: ms, col :: cols =>
    (match col with
     | some c => saveFeature c.id w c.values
     | none => []) ++ saveFeatures w ms cols
  | (false, _) :: ms, _ :: cols => saveFeatures w ms cols
  | _, _ => []

/-- Reads one `ui32` (4 little-endian bytes) from the stream. -/
def readU32 (s : List Nat) : Except CBError (Nat × List Nat) :=
  if 4 ≤ s.length then .ok (bytesToNatLE (s.take 4), s.drop 4) else .error .streamEnd

/-- Reads `m` raw bytes from the stream. -/
def readBytes (m : Nat) (s : List Nat) : Except CBError (List Nat × List Nat) :=
  if m ≤ s.length then .ok (s.take m, s.drop m) else .error .streamEnd

/-- `LoadFeatures` for one feature type (objects.cpp lines 571-612): for
each feature of the layout in order, unavailable features get a null
column; for each available feature the `(id, size, bitsPerKey)` header
is read, the decoded `id` must equal the expected flat feature index and
the decoded `size` must equal the target subset's object count (each
mismatch a hard internal-consistency error), then the word storage is
read and the column rebuilt as a compressed-array holder over it. -/
def loadFeatures (objectCount : Nat) :
    List (Bool × Nat) → List Nat → Except CBError (List (Option TQuantColumn) × List Nat)
  | [], s => .ok ([], s)
  | (avail, flatIdx) :: ms, s =>
    if avail then
      match readU32 s with
      | .error e => .error e
      | .ok (id, s1) =>
        match readU32 s1 with
        | .error e => .error e
        | .ok (size, s2) =>
          match readU32 s2 with
          | .error e => .error e
          | .ok (bitsPerKey, s3) =>
            if id ≠ flatIdx then
              .error (.internalError
                "deserialized feature id is not equal to expected flatFeatureIdx")
            else if size ≠ objectCount then
              .error (.internalError "column data size is not equal to object count")
            else
              match readU32 s3 with
              | .error e => .error e
              | .ok (wordCount, s4) =>
                match readBytes (wordCount * 8) s4 with
                | .error e => .error e
                | .ok (wordData, s5) =>
                  match loadFeatures objectCount ms s5 with
                  | .error e => .error e
                  | .ok (cols, s6) =>
                    .ok (some { id := flatIdx,
                                values := decodeValues bitsPerKey objectCount
                                  (bytesToWordsLE wordData) } :: cols, s6)
    else
      match loadFeatures objectCount ms s with
      | .error e => .error e
      | .ok (cols, s6) => .ok (none :: cols, s6)

/-! ### Little-endian byte arithmetic -/

theorem natToBytesLE_length : ∀ (w v : Nat), (natToBytesLE w v).length = w := by
  intro w
  induction w with
  | zero => intro v; simp [natToBytesLE]
  | succ w ih => intro v; simp [natToBytesLE, ih]

theorem natToBytesLE_lt : ∀ (w v : Nat), ∀ b ∈ natToBytesLE w v, b < 256 := by
  intro w
  induction w with
  | zero => intro v; simp [natToBytesLE]
  | succ w ih =>
    intro v b hb
    rw [natToBytesLE] at hb
    rcases List.mem_cons.mp hb with rfl | hb'
    · exact Nat.mod_lt _ (by omega)
    · exact ih (v / 256) b hb'

theorem bytesToNatLE_natToBytesLE : ∀ (w v : Nat), v < 256 ^ w →
    bytesToNatLE (natToBytesLE w v) = v := by
  intro w
  induction w with
  | zero =>
    intro v hv
    simp only [pow_zero, Nat.lt_one_iff] at hv
    simp [natToBytesLE, bytesToNatLE, hv]
  | succ w ih =>
    intro v hv
    rw [natToBytesLE, bytesToNatLE, ih (v / 256) (by
      rw [Nat.div_lt_iff_lt_mul (by omega : 0 < 256)]
      calc v < 256 ^ (w + 1) := hv
        _ = 256 ^ w * 256 := by ring)]
    omega

theorem bytesToNatLE_append : ∀ (a b : List Nat),
    bytesToNatLE (a ++ b) = bytesToNatLE a + 256 ^ a.length * bytesToNatLE b := by
  intro a
  induction a with
  | nil => intro b; simp [bytesToNatLE]
  | cons x rest ih =>
    intro b
    show bytesToNatLE (x :: (rest ++ b)) =
      bytesToNatLE (x :: rest) + 256 ^ (x :: rest).length * bytesToNatLE b
    rw [bytesToNatLE, bytesToNatLE, ih b, List.length_cons]
    ring

theorem bytesToNatLE_lt : ∀ l : List Nat, (∀ b ∈ l, b < 256) →
    bytesToNatLE l < 256 ^ l.length := by
  intro l
  induction l with
  | nil => intro _; simp [bytesToNatLE]
  | cons x rest ih =>
    intro h
    rw [bytesToNatLE, List.length_cons]
    have hx : x < 256 := h x (List.mem_cons_self _ _)
    have hr : bytesToNatLE rest < 256 ^ rest.length :=
      ih (fun b hb => h b (List.mem_cons_of_mem _ hb))
    calc x + 256 * bytesToNatLE rest < 256 * (bytesToNatLE rest + 1) := by omega
      _ ≤ 256 * 256 ^ rest.length := Nat.mul_le_mul_left _ (by omega)
      _ = 256 ^ (rest.length + 1) := by ring

theorem bytesToNatLE_div : ∀ (k : Nat) (l : List Nat), (∀ b ∈ l, b < 256) →
    bytesToNatLE l / 256 ^ k = bytesToNatLE (l.drop k) := by
  intro k
  induction k with
  | zero => intro l _; simp
  | succ k ih =>
    intro l h
    match l with
    | [] => simp [bytesToNatLE]
    | b :: rest =>
      have hb : b < 256 := h b (List.mem_cons_self _ _)
      have hstep : bytesToNatLE (b :: rest) / 256 = bytesToNatLE rest := by
        rw [bytesToNatLE]
        omega
      calc bytesToNatLE (b :: rest) / 256 ^ (k + 1)
          = bytesToNatLE (b :: rest) / 256 / 256 ^ k := by
            rw [Nat.div_div_eq_div_mul]
            congr 1
            ring
        _ = bytesToNatLE rest / 256 ^ k := by rw [hstep]
        _ = bytesToNatLE (rest.drop k) := ih rest (fun x hx => h x (List.mem_cons_of_mem _ hx))
        _ = bytesToNatLE ((b :: rest).drop (k + 1)) := by simp

theorem bytesToNatLE_mod (l : List Nat) (m : Nat) (h : ∀ b ∈ l, b < 256) :
    bytesToNatLE l % 256 ^ m = bytesToNatLE (l.take m) := by
  by_cases hlen : l.length ≤ m
  · rw [List.take_of_length_le hlen]
    exact Nat.mod_eq_of_lt (lt_of_lt_of_le (bytesToNatLE_lt l h)
      (Nat.pow_le_pow_right (by omega) hlen))
  · have hsplit : l = l.take m ++ l.drop m := (List.take_append_drop m l).symm
    have htlen : (l.take m).length = m := List.length_take_of_le (by omega)
    conv_lhs => rw [hsplit]
    rw [bytesToNatLE_append, htlen, Nat.add_mul_mod_self_left]
    exact Nat.mod_eq_of_lt (lt_of_lt_of_le
      (bytesToNatLE_lt _ (fun b hb => h b (List.mem_of_mem_take hb)))
      (by rw [htlen]))

theorem bytesToNatLE_slice (l : List Nat) (k m : Nat) (h : ∀ b ∈ l, b < 256) :
    bytesToNatLE l / 256 ^ k % 256 ^ m = bytesToNatLE ((l.drop k).take m) := by
  rw [bytesToNatLE_div k l h,
    bytesToNatLE_mod _ m (fun b hb => h b (List.mem_of_mem_drop hb))]

theorem bytesToWordsGo_getD : ∀ (fuel : Nat) (l : List Nat) (j : Nat), l.length ≤ fuel →
    (bytesToWordsGo fuel l).getD j 0 = bytesToNatLE ((l.drop (8 * j)).take 8) := by
  intro fuel
  induction fuel with
  | zero =>
    intro l j hl
    have hnil : l = [] := List.length_eq_zero.mp (Nat.le_zero.mp hl)
    subst hnil
    simp [bytesToWordsGo, bytesToNatLE]
  | succ fuel ih =>
    intro l j hl
    match l with
    | [] => simp [bytesToWordsGo, bytesToNatLE]
    | b :: rest =>
      rw [bytesToWordsGo]
      match j with
      | 0 => simp
      | Nat.succ j' =>
        show (bytesToWordsGo fuel ((b :: rest).drop 8)).getD j' 0 = _
        rw [ih ((b :: rest).drop 8) j' (by
          rw [List.length_drop]
          simp only [List.length_cons] at hl ⊢
          omega)]
        rw [List.drop_drop]
        have harith : 8 + 8 * j' = 8 * (j' + 1) := by omega
        simp only [Nat.succ_eq_add_one, harith]

theorem valuesBytes_cons (w v : Nat) (vs : List Nat) :
    valuesBytes w (v :: vs) = natToBytesLE w v ++ valuesBytes w vs := by
  simp [valuesBytes]

theorem valuesBytes_length (w : Nat) : ∀ vs : List Nat,
    (valuesBytes w vs).length = w * vs.length := by
  intro vs
  induction vs with
  | nil => simp [valuesBytes]
  | cons v rest ih =>
    rw [valuesBytes_cons, List.length_append, natToBytesLE_length, ih, List.length_cons,
      Nat.mul_succ]
    omega

theorem valuesBytes_lt (w : Nat) : ∀ vs : List Nat, ∀ b ∈ valuesBytes w vs, b < 256 := by
  intro vs
  induction vs with
  | nil => simp [valuesBytes]
  | cons v rest ih =>
    rw [valuesBytes_cons]
    intro b hb
    rcases List.mem_append.mp hb with h1 | h2
    · exact natToBytesLE_lt w v b h1
    · exact ih b h2

theorem valuesBytes_drop (w : Nat) : ∀ (i : Nat) (vs : List Nat) (t : List Nat),
    i ≤ vs.length →
    (valuesBytes w vs ++ t).drop (w * i) = valuesBytes w (vs.drop i) ++ t := by
  intro i
  induction i with
  | zero => intro vs t _; simp
  | succ i ih =>
    intro vs t hle
    match vs with
    | [] => simp at hle
    | v :: rest =>
      rw [valuesBytes_cons, List.append_assoc]
      have harith : w * (i + 1) = w + w * i := by ring
      rw [harith, ← List.drop_drop]
      rw [List.drop_left' (natToBytesLE_length w v)]
      rw [ih rest t (by simpa using hle)]
      simp

theorem decodeValue_bytes (w e : Nat) (hwe : w * e = 8) (he : 64 / (w * 8) = e)
    (bytes : List Nat) (hb : ∀ b ∈ bytes, b < 256) (i : Nat) :
    decodeValue (w * 8) (bytesToWordsLE bytes) i =
      bytesToNatLE ((bytes.drop (w * i)).take w) := by
  have he0 : 0 < e := Nat.pos_of_ne_zero (fun h => by simp [h] at hwe)
  rw [decodeValue, he]
  rw [bytesToWordsLE, bytesToWordsGo_getD bytes.length bytes (i / e) le_rfl]
  have h2 : (2 : Nat) ^ (i % e * (w * 8)) = 256 ^ (i % e * w) := by
    rw [show (256 : Nat) = 2 ^ 8 from by norm_num, ← pow_mul]
    congr 1
    ring
  have h3 : (2 : Nat) ^ (w * 8) = 256 ^ w := by
    rw [show (256 : Nat) = 2 ^ 8 from by norm_num, ← pow_mul]
    congr 1
    ring
  rw [h2, h3]
  rw [bytesToNatLE_slice _ _ _
    (fun b hbm => hb b (List.mem_of_mem_drop (List.mem_of_mem_take hbm)))]
  have h8 : e * w = 8 := by rw [Nat.mul_comm]; exact hwe
  have hle : i % e * w + w ≤ 8 := by
    have hmlt : i % e < e := Nat.mod_lt _ he0
    have h1 : i % e * w ≤ (e - 1) * w := Nat.mul_le_mul_right w (by omega)
    have h2' : (e - 1) * w + w = e * w := by
      cases e with
      | zero => omega
      | succ e' => rw [Nat.succ_sub_one, Nat.succ_mul]
    omega
  rw [List.drop_take, List.take_take, min_eq_left (by omega), List.drop_drop]
  have hmod := Nat.div_add_mod i e
  have harith : 8 * (i / e) + i % e * w = w * i := by
    calc 8 * (i / e) + i % e * w = w * e * (i / e) + w * (i % e) := by rw [hwe]; ring
      _ = w * (e * (i / e) + i % e) := by ring
      _ = w * i := by rw [hmod]
  rw [harith]

theorem decodeValues_roundtrip (w e : Nat) (hwe : w * e = 8)
    (he : 64 / (w * 8) = e) (vs : List Nat) (hb : ∀ v ∈ vs, v < 256 ^ w)
    (t : List Nat) (ht : ∀ b ∈ t, b < 256) :
    decodeValues (w * 8) vs.length (bytesToWordsLE (valuesBytes w vs ++ t)) = vs := by
  have hbytes : ∀ b ∈ valuesBytes w vs ++ t, b < 256 := by
    intro b hbm
    rcases List.mem_append.mp hbm with h1 | h2
    · exact valuesBytes_lt w vs b h1
    · exact ht b h2
  apply List.ext_getElem
  · simp [decodeValues]
  intro i h1 h2
  have hi : i < vs.length := h2
  simp only [decodeValues, List.getElem_map, List.getElem_range]
  rw [decodeValue_bytes w e hwe he _ hbytes i]
  rw [valuesBytes_drop w i vs t (le_of_lt hi)]
  rw [List.drop_eq_getElem_cons hi, valuesBytes_cons, List.append_assoc,
    List.take_left' (natToBytesLE_length w _)]
  exact bytesToNatLE_natToBytesLE w vs[i] (hb vs[i] (List.getElem_mem hi))

/-! ### Round trip of the per-type feature serialization -/

/-- Decoded values of a possibly-null column (a null column has none). -/
def colValues : Option TQuantColumn → List Nat
  | none => []
  | some c => c.values

/-- Well-formedness of one feature slot against its layout entry, as
established by `TQuantizedObjectsData::Check` and by construction: an
available feature has a non-null column whose id equals the layout's
flat feature index (below `2^32`), whose length equals the object count
and whose decoded values fit in `w` bytes. -/
def colOkB (w n : Nat) : Bool × Nat → Option TQuantColumn → Bool
  | (false, _), _ => true
  | (true, _), none => false
  | (true, flat), some c =>
    c.id == flat && decide (flat < 2 ^ 32) && c.values.length == n &&
      c.values.all (fun v => decide (v < 256 ^ w))

/-- Well-formedness of a per-type column list against its layout. -/
def colsOkB (w n : Nat) : List (Bool × Nat) → List (Option TQuantColumn) → Bool
  | [], [] => true
  | m :: ms, col :: cols => colOkB w n m col && colsOkB w n ms cols
  | _, _ => false

/-- The column list reproduced by deserializing a serialized column
list: available slots keep their id (the flat index) and decoded
values, unavailable slots are null. -/
def normalizeCols : List (Bool × Nat) → List (Option TQuantColumn) → List (Option TQuantColumn)
  | (true, flat) :: ms, col :: cols =>
    some { id := flat, values := colValues col } :: normalizeCols ms cols
  | (false, _) :: ms, _ :: cols => none :: normalizeCols ms cols
  | _, _ => []

theorem readU32_u32Bytes (v : Nat) (hv : v < 2 ^ 32) (s : List Nat) :
    readU32 (u32Bytes v ++ s) = .ok (v, s) := by
  have hlen : (u32Bytes v).length = 4 := by rw [u32Bytes, natToBytesLE_length]
  rw [readU32, if_pos (by rw [List.length_append, hlen]; omega)]
  rw [List.take_left' hlen, List.drop_left' hlen]
  rw [u32Bytes, bytesToNatLE_natToBytesLE 4 v (by norm_num; norm_num at hv; omega)]

theorem readBytes_exact (m : Nat) (a s : List Nat) (ha : a.length = m) :
    readBytes m (a ++ s) = .ok (a, s) := by
  rw [readBytes, if_pos (by rw [List.length_append]; omega)]
  rw [List.take_left' ha, List.drop_left' ha]

theorem compressedSize_le (w n : Nat) (hw : w ≤ 8) : compressedSize (w * 8) n ≤ n := by
  rw [compressedSize]
  have h1 : n * (w * 8) ≤ n * 64 := Nat.mul_le_mul_left n (by omega)
  omega

theorem compressedSize_mul8_ge (w n : Nat) : w * n ≤ compressedSize (w * 8) n * 8 := by
  rw [compressedSize]
  have h1 : n * (w * 8) = w * n * 8 := by ring
  rw [h1]
  omega

/-- Round trip of one feature type: loading the saved byte stream of a
well-formed column list reproduces the column list (null at unavailable
slots) and consumes exactly the saved bytes. -/
theorem loadFeatures_saveFeatures (w e : Nat) (hwe : w * e = 8) (he : 64 / (w * 8) = e)
    (n : Nat) (hn : n < 2 ^ 32) :
    ∀ (metas : List (Bool × Nat)) (cols : List (Option TQuantColumn)) (t : List Nat),
    colsOkB w n metas cols = true →
    loadFeatures n metas (saveFeatures w metas cols ++ t) =
      .ok (normalizeCols metas cols, t) := by
  have he0 : 0 < e := Nat.pos_of_ne_zero (fun h => by simp [h] at hwe)
  have hw8 : w ≤ 8 := by
    calc w = w * 1 := (Nat.mul_one w).symm
      _ ≤ w * e := Nat.mul_le_mul_left w he0
      _ = 8 := hwe
  intro metas
  induction metas with
  | nil =>
    intro cols t hok
    match cols with
    | [] => simp [saveFeatures, loadFeatures, normalizeCols]
    | _ :: _ => simp [colsOkB] at hok
  | cons m ms ih =>
    intro cols t hok
    obtain ⟨avail, flat⟩ := m
    match cols with
    | [] =>
      match avail with
      | true => simp [colsOkB] at hok
      | false => simp [colsOkB] at hok
    | col :: cols' =>
      rw [colsOkB, Bool.and_eq_true] at hok
      obtain ⟨hok1, hok'⟩ := hok
      match avail with
      | false =>
        rw [saveFeatures, loadFeatures]
        simp only [Bool.false_eq_true, if_false]
        rw [ih cols' t hok', normalizeCols]
      | true =>
        match col with
        | none => simp [colOkB] at hok1
        | some c =>
          rw [colOkB] at hok1
          simp only [Bool.and_eq_true, beq_iff_eq, decide_eq_true_eq, List.all_eq_true] at hok1
          obtain ⟨⟨⟨hid, hflat⟩, hclen⟩, hvals⟩ := hok1
          have hvals' : ∀ v ∈ c.values, v < 256 ^ w := fun v hv => (hvals v hv)
          rw [saveFeatures]
          show loadFeatures n ((true, flat) :: ms) _ = _
          rw [saveFeature]
          simp only [List.append_assoc]
          rw [loadFeatures]
          simp only [if_true]
          rw [readU32_u32Bytes c.id (hid ▸ hflat)]
          simp only []
          rw [readU32_u32Bytes c.values.length (by omega)]
          simp only []
          have hbits32 : w * 8 < 2 ^ 32 := by norm_num; omega
          rw [readU32_u32Bytes (w * 8) hbits32]
          simp only []
          rw [if_neg (by simp [hid])]
          rw [if_neg (by omega)]
          have hWc : compressedSize (w * 8) c.values.length < 2 ^ 32 :=
            lt_of_le_of_lt (compressedSize_le w _ hw8) (by omega)
          rw [readU32_u32Bytes _ hWc]
          simp only []
          have hgrp : valuesBytes w c.values ++
              (List.replicate (compressedSize (w * 8) c.values.length * 8 -
                w * c.values.length) 0 ++ (saveFeatures w ms cols' ++ t)) =
              (valuesBytes w c.values ++
                List.replicate (compressedSize (w * 8) c.values.length * 8 -
                  w * c.values.length) 0) ++ (saveFeatures w ms cols' ++ t) := by
            rw [List.append_assoc]
          rw [hgrp]
          have hplen : (valuesBytes w c.values ++
              List.replicate (compressedSize (w * 8) c.values.length * 8 -
                w * c.values.length) 0).length =
              compressedSize (w * 8) c.values.length * 8 := by
            rw [List.length_append, valuesBytes_length, List.length_replicate]
            have := compressedSize_mul8_ge w c.values.length
            omega
          rw [readBytes_exact _ _ _ hplen]
          simp only []
          rw [ih cols' t hok']
          simp only []
          have hdec : decodeValues (w * 8) n
              (bytesToWordsLE (valuesBytes w c.values ++
                List.replicate (compressedSize (w * 8) c.values.length * 8 -
                  w * c.values.length) 0)) = c.values := by
            rw [← hclen]
            exact decodeValues_roundtrip w e hwe he c.values hvals' _
              (fun b hb => by
                rw [List.eq_of_mem_replicate hb]
                omega)
          rw [hdec, normalizeCols]
          rfl

/-- Under `colsOkB`, the reloaded column equals the original at every
available position (its id already is the flat index). -/
theorem normalizeCols_avail (w n : Nat) : ∀ (metas : List (Bool × Nat))
    (cols : List (Option TQuantColumn)), colsOkB w n metas cols = true →
    ∀ i, i < metas.length → (metas.getD i (false, 0)).1 = true →
    (normalizeCols metas cols).getD i none = cols.getD i none := by
  intro metas
  induction metas with
  | nil => intro cols _ i hi; simp at hi
  | cons m ms ih =>
    intro cols hok i hi havail
    obtain ⟨avail, flat⟩ := m
    match cols with
    | [] =>
      match avail with
      | true => simp [colsOkB] at hok
      | false => simp [colsOkB] at hok
    | col :: cols' =>
      rw [colsOkB, Bool.and_eq_true] at hok
      obtain ⟨hok1, hok'⟩ := hok
      match i with
      | 0 =>
        match avail with
        | false => simp at havail
        | true =>
          match col with
          | none => simp [colOkB] at hok1
          | some c =>
            rw [colOkB] at hok1
            simp only [Bool.and_eq_true, beq_iff_eq, decide_eq_true_eq,
              List.all_eq_true] at hok1
            obtain ⟨⟨⟨hid, _⟩, _⟩, _⟩ := hok1
            rw [normalizeCols]
            show some { id := flat, values := colValues (some c) } = some c
            rw [colValues, ← hid]
      | Nat.succ i' =>
        match avail with
        | true =>
          rw [normalizeCols]
          show (normalizeCols ms cols').getD i' none = cols'.getD i' none
          exact ih cols' hok' i' (by simpa using hi) (by simpa using havail)
        | false =>
          rw [normalizeCols]
          show (normalizeCols ms cols').getD i' none = cols'.getD i' none
          exact ih cols' hok' i' (by simpa using hi) (by simpa using havail)

/-! ### The features checksum -/

/-- Modelled from the spec: `UpdateCheckSum`
(catboost/libs/helpers/checksum.h is not under `src/`): per spec §4.5
the checksum is a deterministic, order-sensitive fold of each value
into a running integer checksum — designed so that the same multiset of
values in a different row order yields a different checksum.  It is
modelled as the order-faithful injective fold
`c * 2^32 + (v mod 2^32)`. -/
def UpdateCheckSum (c v : Nat) : Nat := c * 4294967296 + v % 4294967296

/-- `CalcFeatureValuesCheckSum` (objects.cpp lines 519-548): folds the
running checksum over the features of one type in layout order; an
available feature contributes its decoded values in row order, an
unavailable feature contributes exactly one fold of the constant 0
(`emptyColumnDataForCrc`).  An available feature with a null column
would be a null dereference in the source (`Check` forbids it); it is
modelled as contributing nothing. -/
def calcFeatureValuesCheckSum (init : Nat) :
    List (Bool × Nat) → List (Option TQuantColumn) → Nat
  | (true, _) :: ms, col :: cols =>
    calcFeatureValuesCheckSum ((colValues col).foldl UpdateCheckSum init) ms cols
  | (false, _) :: ms, _ :: cols =>
    calcFeatureValuesCheckSum (UpdateCheckSum init 0) ms cols
  | _, _ => init

/-- The flat contribution stream of the per-type checksum: an available
feature contributes its decoded values in row order, an unavailable
feature exactly one constant 0. -/
def checkSumStream : List (Bool × Nat) → List (Option TQuantColumn) → List Nat
  | (true, _) :: ms, col :: cols => colValues col ++ checkSumStream ms cols
  | (false, _) :: ms, _ :: cols => 0 :: checkSumStream ms cols
  | _, _ => []

theorem calcFeatureValuesCheckSum_eq_foldl : ∀ (ms : List (Bool × Nat))
    (cols : List (Option TQuantColumn)) (init : Nat),
    calcFeatureValuesCheckSum init ms cols =
      (checkSumStream ms cols).foldl UpdateCheckSum init := by
  intro ms
  induction ms with
  | nil => intro cols init; cases cols <;> simp [calcFeatureValuesCheckSum, checkSumStream]
  | cons m ms ih =>
    intro cols init
    obtain ⟨avail, flat⟩ := m
    match cols with
    | [] =>
      match avail with
      | true => simp [calcFeatureValuesCheckSum, checkSumStream]
      | false => simp [calcFeatureValuesCheckSum, checkSumStream]
    | col :: cols' =>
      match avail with
      | true =>
        rw [calcFeatureValuesCheckSum, checkSumStream, List.foldl_append, ih]
      | false =>
        rw [calcFeatureValuesCheckSum, checkSumStream, List.foldl_cons, ih]

/-- `TQuantizedObjectsData`: per-type feature columns plus the shared
quantization metadata, which enters only through its checksum
(`TQuantizedFeaturesInfo::CalcCheckSum`, an external collaborator),
carried here as `infoCheckSum`. -/
structure TQuantizedObjectsData where
  floatFeatures : List (Option TQuantColumn)
  catFeatures : List (Option TQuantColumn)
  infoCheckSum : Nat
  deriving DecidableEq, Repr

/-- `TQuantizedObjectsData::SaveNonSharedPart` (objects.cpp lines
672-687): the float feature records followed by the categorical feature
records.  `floatMetas`/`catMetas` are the per-type layout entries
(availability flag and flat feature index). -/
def saveNonSharedPart (floatMetas catMetas : List (Bool × Nat))
    (d : TQuantizedObjectsData) : List Nat :=
  saveFeatures 1 floatMetas d.floatFeatures ++ saveFeatures 4 catMetas d.catFeatures

/-- `TQuantizedObjectsData::Load` (objects.cpp lines 614-632): loads the
float then the categorical columns against the given layout, object
count and shared quantization info. -/
def loadQuantizedObjectsData (floatMetas catMetas : List (Bool × Nat))
    (objectCount infoCk : Nat) (s : List Nat) :
    Except CBError (TQuantizedObjectsData × List Nat) :=
  match loadFeatures objectCount floatMetas s with
  | .error e => .error e
  | .ok (ff, s1) =>
    match loadFeatures objectCount catMetas s1 with
    | .error e => .error e
    | .ok (cf, s2) =>
      .ok ({ floatFeatures := ff, catFeatures := cf, infoCheckSum := infoCk }, s2)

/-- `TQuantizedObjectsDataProvider::CalcFeaturesCheckSum` (objects.cpp
lines 550-569): start from the quantization-info checksum, fold the
float features, then fold the categorical features. -/
def calcFeaturesCheckSum (floatMetas catMetas : List (Bool × Nat))
    (d : TQuantizedObjectsData) : Nat :=
  calcFeatureValuesCheckSum
    (calcFeatureValuesCheckSum d.infoCheckSum floatMetas d.floatFeatures)
    catMetas d.catFeatures

/-- Reloading changes no checksum contribution: unavailable slots
contribute the constant fold either way, available ones keep their
values. -/
theorem calcFeatureValuesCheckSum_normalize : ∀ (ms : List (Bool × Nat))
    (cols : List (Option TQuantColumn)) (init : Nat),
    calcFeatureValuesCheckSum init ms (normalizeCols ms cols) =
      calcFeatureValuesCheckSum init ms cols := by
  intro ms
  induction ms with
  | nil => intro cols init; cases cols <;> rfl
  | cons m ms ih =>
    intro cols init
    obtain ⟨avail, flat⟩ := m
    match cols with
    | [] =>
      match avail with
      | true => rfl
      | false => rfl
    | col :: cols' =>
      match avail with
      | true =>
        rw [normalizeCols, calcFeatureValuesCheckSum, calcFeatureValuesCheckSum, ih]
        rfl
      | false =>
        rw [normalizeCols, calcFeatureValuesCheckSum, calcFeatureValuesCheckSum, ih]

/-- C2: deserializing the byte stream produced by serializing a
well-formed quantized objects-data value (any mix of available and
unavailable float and categorical features) succeeds, consumes exactly
the serialized bytes, reproduces identical per-row decoded values and
feature ids for every available feature (unavailable slots are null),
and yields an identical features checksum. -/
theorem quantized_serialize_roundtrip (floatMetas catMetas : List (Bool × Nat))
    (d : TQuantizedObjectsData) (n : Nat) (t : List Nat) (hn : n < 2 ^ 32)
    (hF : colsOkB 1 n floatMetas d.floatFeatures = true)
    (hC : colsOkB 4 n catMetas d.catFeatures = true) :
    loadQuantizedObjectsData floatMetas catMetas n d.infoCheckSum
        (saveNonSharedPart floatMetas catMetas d ++ t) =
      .ok ({ floatFeatures := normalizeCols floatMetas d.floatFeatures,
             catFeatures := normalizeCols catMetas d.catFeatures,
             infoCheckSum := d.infoCheckSum }, t)
    ∧ (∀ i, i < floatMetas.length → (floatMetas.getD i (false, 0)).1 = true →
        (normalizeCols floatMetas d.floatFeatures).getD i none =
          d.floatFeatures.getD i none)
    ∧ (∀ i, i < catMetas.length → (catMetas.getD i (false, 0)).1 = true →
        (normalizeCols catMetas d.catFeatures).getD i none = d.catFeatures.getD i none)
    ∧ calcFeaturesCheckSum floatMetas catMetas
        { floatFeatures := normalizeCols floatMetas d.floatFeatures,
          catFeatures := normalizeCols catMetas d.catFeatures,
          infoCheckSum := d.infoCheckSum } =
      calcFeaturesCheckSum floatMetas catMetas d := by
  refine ⟨?_, normalizeCols_avail 1 n floatMetas d.floatFeatures hF,
    normalizeCols_avail 4 n catMetas d.catFeatures hC, ?_⟩
  · rw [loadQuantizedObjectsData, saveNonSharedPart, List.append_assoc]
    rw [loadFeatures_saveFeatures 1 8 (by norm_num) (by norm_num) n hn
      floatMetas d.floatFeatures _ hF]
    simp only []
    rw [loadFeatures_saveFeatures 4 2 (by norm_num) (by norm_num) n hn
      catMetas d.catFeatures t hC]
  · rw [calcFeaturesCheckSum, calcFeaturesCheckSum]
    simp only []
    rw [calcFeatureValuesCheckSum_normalize floatMetas d.floatFeatures,
      calcFeatureValuesCheckSum_normalize catMetas d.catFeatures]

theorem quantized_serialize_roundtrip_witness :
    loadQuantizedObjectsData [(true, 0), (false, 1)] [(true, 2)] 2 11
        (saveNonSharedPart [(true, 0), (false, 1)] [(true, 2)]
          { floatFeatures := [some { id := 0, values := [1, 255] }, none],
            catFeatures := [some { id := 2, values := [70000, 3] }],
            infoCheckSum := 11 } ++ []) =
      .ok ({ floatFeatures :=
               normalizeCols [(true, 0), (false, 1)]
                 [some { id := 0, values := [1, 255] }, none],
             catFeatures :=
               normalizeCols [(true, 2)] [some { id := 2, values := [70000, 3] }],
             infoCheckSum := 11 }, []) :=
  (quantized_serialize_roundtrip [(true, 0), (false, 1)] [(true, 2)]
    { floatFeatures := [some { id := 0, values := [1, 255] }, none],
      catFeatures := [some { id := 2, values := [70000, 3] }],
      infoCheckSum := 11 } 2 [] (by norm_num) (by decide) (by decide)).1

/-- C8: each serialized feature record is the four `ui32` header fields
followed by the value payload and zero padding; the emitted
`compressedWordCount` equals the number of 8-byte words needed to hold
`rowCount` values of `bitsPerKey = w * 8` bits each; and the payload
bytes plus the zero padding bytes total exactly
`compressedWordCount * 8` bytes (padding to the next 8-byte word
boundary). -/
theorem saveFeature_record_shape (id w : Nat) (vs : List Nat) :
    saveFeature id w vs =
      u32Bytes id ++ u32Bytes vs.length ++ u32Bytes (w * 8) ++
        u32Bytes (compressedSize (w * 8) vs.length) ++
        valuesBytes w vs ++
        List.replicate (compressedSize (w * 8) vs.length * 8 - w * vs.length) 0
    ∧ compressedSize (w * 8) vs.length = (vs.length * (w * 8) + 63) / 64
    ∧ (valuesBytes w vs).length +
        (List.replicate (compressedSize (w * 8) vs.length * 8 - w * vs.length) 0).length =
      compressedSize (w * 8) vs.length * 8 := by
  refine ⟨rfl, rfl, ?_⟩
  rw [valuesBytes_length, List.length_replicate]
  have := compressedSize_mul8_ge w vs.length
  omega

/-- C6: during deserialization, at an available feature position a
decoded feature id differing from the expected flat feature index, or a
decoded row count differing from the target subset size, is a hard
internal-consistency error; an unavailable position reads nothing and a
well-formed record is consumed and the loader proceeds, so the check
fires at every available position. -/
theorem loadFeatures_header_validation :
    (∀ (n flat id size bits : Nat) (ms : List (Bool × Nat)) (s : List Nat),
      id < 2 ^ 32 → size < 2 ^ 32 → bits < 2 ^ 32 →
      id ≠ flat ∨ size ≠ n →
      ∃ msg, loadFeatures n ((true, flat) :: ms)
          (u32Bytes id ++ (u32Bytes size ++ (u32Bytes bits ++ s))) =
        .error (.internalError msg))
    ∧ (∀ (n flat : Nat) (ms : List (Bool × Nat)) (s : List Nat),
      loadFeatures n ((false, flat) :: ms) s =
        (loadFeatures n ms s).map (fun r => (none :: r.1, r.2)))
    ∧ (∀ (n flat bits wc : Nat) (ms : List (Bool × Nat)) (wordData s : List Nat),
      flat < 2 ^ 32 → n < 2 ^ 32 → bits < 2 ^ 32 → wc < 2 ^ 32 →
      wordData.length = wc * 8 →
      loadFeatures n ((true, flat) :: ms)
          (u32Bytes flat ++ (u32Bytes n ++ (u32Bytes bits ++
            (u32Bytes wc ++ (wordData ++ s))))) =
        (loadFeatures n ms s).map
          (fun r =>
            (some ⟨flat, decodeValues bits n (bytesToWordsLE wordData)⟩ :: r.1, r.2))) := by
  refine ⟨?_, ?_, ?_⟩
  · intro n flat id size bits ms s hid hsize hbits hmis
    rw [loadFeatures]
    simp only [if_true]
    rw [readU32_u32Bytes id hid]
    simp only []
    rw [readU32_u32Bytes size hsize]
    simp only []
    rw [readU32_u32Bytes bits hbits]
    simp only []
    by_cases hidf : id = flat
    · have hsz : size ≠ n := by tauto
      rw [if_neg (by simpa using hidf), if_pos hsz]
      exact ⟨_, rfl⟩
    · rw [if_pos hidf]
      exact ⟨_, rfl⟩
  · intro n flat ms s
    rw [loadFeatures]
    simp only [Bool.false_eq_true, if_false]
    rcases h : loadFeatures n ms s with e | r
    · simp [Except.map]
    · simp [Except.map]
  · intro n flat bits wc ms wordData s hflat hn hbits hwc hlen
    rw [loadFeatures]
    simp only [if_true]
    rw [readU32_u32Bytes flat hflat]
    simp only []
    rw [readU32_u32Bytes n hn]
    simp only []
    rw [readU32_u32Bytes bits hbits]
    simp only []
    rw [if_neg (by simp), if_neg (by simp)]
    rw [readU32_u32Bytes wc hwc]
    simp only []
    rw [readBytes_exact _ _ _ hlen]
    simp only []
    rcases h : loadFeatures n ms s with e | r
    · simp [Except.map]
    · simp [Except.map]

theorem loadFeatures_header_validation_witness :
    ∃ msg, loadFeatures 3 [(true, 5)]
        (u32Bytes 4 ++ (u32Bytes 3 ++ (u32Bytes 8 ++ []))) =
      .error (.internalError msg) :=
  loadFeatures_header_validation.1 3 5 4 3 8 [] []
    (by norm_num) (by norm_num) (by norm_num) (Or.inl (by norm_num))

/-! ### Checksum determinism and order sensitivity -/

theorem updateCheckSum_foldl_inj : ∀ (l1 l2 : List Nat) (c1 c2 : Nat),
    l1.length = l2.length →
    l1.foldl UpdateCheckSum c1 = l2.foldl UpdateCheckSum c2 →
    c1 = c2 ∧ l1.map (fun v => v % 4294967296) = l2.map (fun v => v % 4294967296) := by
  intro l1
  induction l1 with
  | nil =>
    intro l2 c1 c2 hlen h
    have hnil : l2 = [] := List.length_eq_zero.mp hlen.symm
    subst hnil
    exact ⟨h, rfl⟩
  | cons x xs ih =>
    intro l2 c1 c2 hlen h
    match l2 with
    | [] => simp at hlen
    | y :: ys =>
      simp only [List.foldl_cons] at h
      obtain ⟨hc, hmap⟩ := ih ys (UpdateCheckSum c1 x) (UpdateCheckSum c2 y)
        (by simpa using hlen) h
      rw [UpdateCheckSum, UpdateCheckSum] at hc
      have hx : x % 4294967296 < 4294967296 := Nat.mod_lt _ (by omega)
      have hy : y % 4294967296 < 4294967296 := Nat.mod_lt _ (by omega)
      exact ⟨by omega, by simp only [List.map_cons, hmap]; congr 1; omega⟩

theorem checkSumStream_bound : ∀ (ms : List (Bool × Nat))
    (cols : List (Option TQuantColumn)),
    (∀ i, i < ms.length → ∀ v ∈ colValues (cols.getD i none), v < 4294967296) →
    ∀ v ∈ checkSumStream ms cols, v < 4294967296 := by
  intro ms
  induction ms with
  | nil => intro cols _ v hv; cases cols <;> simp [checkSumStream] at hv
  | cons m ms ih =>
    intro cols hb v hv
    obtain ⟨avail, flat⟩ := m
    match cols with
    | [] =>
      match avail with
      | true => simp [checkSumStream] at hv
      | false => simp [checkSumStream] at hv
    | col :: cols' =>
      match avail with
      | true =>
        rw [checkSumStream] at hv
        rcases List.mem_append.mp hv with h1 | h2
        · exact hb 0 (by simp) v h1
        · exact ih cols' (fun i hi => hb (i + 1) (by simpa using hi)) v h2
      | false =>
        rw [checkSumStream] at hv
        rcases List.mem_cons.mp hv with rfl | h2
        · omega
        · exact ih cols' (fun i hi => hb (i + 1) (by simpa using hi)) v h2

theorem checkSumStream_length_congr : ∀ (ms : List (Bool × Nat))
    (cols1 cols2 : List (Option TQuantColumn)),
    cols1.length = ms.length → cols2.length = ms.length →
    (∀ i, i < ms.length →
      (colValues (cols1.getD i none)).length = (colValues (cols2.getD i none)).length) →
    (checkSumStream ms cols1).length = (checkSumStream ms cols2).length := by
  intro ms
  induction ms with
  | nil =>
    intro cols1 cols2 h1 h2 _
    have e1 : cols1 = [] := List.length_eq_zero.mp h1
    have e2 : cols2 = [] := List.length_eq_zero.mp h2
    subst e1
    subst e2
    rfl
  | cons m ms ih =>
    intro cols1 cols2 h1 h2 hlen
    obtain ⟨avail, flat⟩ := m
    match cols1, cols2 with
    | [], _ => simp at h1
    | _ :: _, [] => simp at h2
    | c1 :: cs1, c2 :: cs2 =>
      have hrec := ih cs1 cs2 (by simpa using h1) (by simpa using h2)
        (fun i hi => hlen (i + 1) (by simpa using hi))
      match avail with
      | true =>
        have h0 := hlen 0 (by simp)
        simp only [List.getD_cons_zero] at h0
        rw [checkSumStream, checkSumStream, List.length_append, List.length_append,
          h0, hrec]
      | false =>
        rw [checkSumStream, checkSumStream, List.length_cons, List.length_cons, hrec]

theorem checkSumStream_inj : ∀ (ms : List (Bool × Nat))
    (cols1 cols2 : List (Option TQuantColumn)),
    cols1.length = ms.length → cols2.length = ms.length →
    (∀ i, i < ms.length →
      (colValues (cols1.getD i none)).length = (colValues (cols2.getD i none)).length) →
    checkSumStream ms cols1 = checkSumStream ms cols2 →
    ∀ i, i < ms.length → (ms.getD i (false, 0)).1 = true →
      colValues (cols1.getD i none) = colValues (cols2.getD i none) := by
  intro ms
  induction ms with
  | nil => intro cols1 cols2 _ _ _ _ i hi; simp at hi
  | cons m ms ih =>
    intro cols1 cols2 h1 h2 hlen heq i hi havail
    obtain ⟨avail, flat⟩ := m
    match cols1, cols2 with
    | [], _ => simp at h1
    | _ :: _, [] => simp at h2
    | c1 :: cs1, c2 :: cs2 =>
      match avail with
      | true =>
        rw [checkSumStream, checkSumStream] at heq
        obtain ⟨hval, hstream⟩ := List.append_inj heq (hlen 0 (by simp))
        match i with
        | 0 => exact hval
        | Nat.succ i' =>
          exact ih cs1 cs2 (by simpa using h1) (by simpa using h2)
            (fun j hj => hlen (j + 1) (by simpa using hj)) hstream i'
            (by simpa using hi) (by simpa using havail)
      | false =>
        match i with
        | 0 => simp at havail
        | Nat.succ i' =>
          rw [checkSumStream, checkSumStream, List.cons.injEq] at heq
          exact ih cs1 cs2 (by simpa using h1) (by simpa using h2)
            (fun j hj => hlen (j + 1) (by simpa using hj)) heq.2 i'
            (by simpa using hi) (by simpa using havail)

/-- C5: the features checksum is a deterministic function of the
dataset (the same dataset checksummed twice gives the same value), and
two quantized datasets holding the same per-feature multisets of
decoded values (all below `2^32`) but in different row order produce
different checksums. -/
theorem calcFeaturesCheckSum_det_orderSensitive :
    (∀ (fm cm : List (Bool × Nat)) (d : TQuantizedObjectsData),
      calcFeaturesCheckSum fm cm d = calcFeaturesCheckSum fm cm d)
    ∧ ∀ (fm cm : List (Bool × Nat)) (d1 d2 : TQuantizedObjectsData),
      d1.infoCheckSum = d2.infoCheckSum →
      d1.floatFeatures.length = fm.length → d2.floatFeatures.length = fm.length →
      d1.catFeatures.length = cm.length → d2.catFeatures.length = cm.length →
      (∀ i, i < fm.length → List.Perm (colValues (d1.floatFeatures.getD i none))
        (colValues (d2.floatFeatures.getD i none))) →
      (∀ i, i < cm.length → List.Perm (colValues (d1.catFeatures.getD i none))
        (colValues (d2.catFeatures.getD i none))) →
      (∀ i, i < fm.length → ∀ v ∈ colValues (d1.floatFeatures.getD i none),
        v < 4294967296) →
      (∀ i, i < cm.length → ∀ v ∈ colValues (d1.catFeatures.getD i none),
        v < 4294967296) →
      ((∃ i, i < fm.length ∧ (fm.getD i (false, 0)).1 = true ∧
          colValues (d1.floatFeatures.getD i none) ≠
            colValues (d2.floatFeatures.getD i none))
        ∨ (∃ i, i < cm.length ∧ (cm.getD i (false, 0)).1 = true ∧
          colValues (d1.catFeatures.getD i none) ≠
            colValues (d2.catFeatures.getD i none))) →
      calcFeaturesCheckSum fm cm d1 ≠ calcFeaturesCheckSum fm cm d2 := by
  refine ⟨fun fm cm d => rfl, ?_⟩
  intro fm cm d1 d2 hck hf1 hf2 hc1 hc2 hpermF hpermC hbF hbC hdiff heq
  rw [calcFeaturesCheckSum, calcFeaturesCheckSum] at heq
  rw [calcFeatureValuesCheckSum_eq_foldl, calcFeatureValuesCheckSum_eq_foldl,
    calcFeatureValuesCheckSum_eq_foldl, calcFeatureValuesCheckSum_eq_foldl,
    ← List.foldl_append, ← List.foldl_append] at heq
  have hlenF : ∀ i, i < fm.length →
      (colValues (d1.floatFeatures.getD i none)).length =
        (colValues (d2.floatFeatures.getD i none)).length :=
    fun i hi => (hpermF i hi).length_eq
  have hlenC : ∀ i, i < cm.length →
      (colValues (d1.catFeatures.getD i none)).length =
        (colValues (d2.catFeatures.getD i none)).length :=
    fun i hi => (hpermC i hi).length_eq
  have hSF := checkSumStream_length_congr fm d1.floatFeatures d2.floatFeatures hf1 hf2 hlenF
  have hSC := checkSumStream_length_congr cm d1.catFeatures d2.catFeatures hc1 hc2 hlenC
  have hinj := updateCheckSum_foldl_inj
    (checkSumStream fm d1.floatFeatures ++ checkSumStream cm d1.catFeatures)
    (checkSumStream fm d2.floatFeatures ++ checkSumStream cm d2.catFeatures)
    d1.infoCheckSum d2.infoCheckSum
    (by rw [List.length_append, List.length_append, hSF, hSC]) heq
  have hbound1 : ∀ v ∈ checkSumStream fm d1.floatFeatures ++
      checkSumStream cm d1.catFeatures, v < 4294967296 := by
    intro v hv
    rcases List.mem_append.mp hv with h | h
    · exact checkSumStream_bound fm d1.floatFeatures hbF v h
    · exact checkSumStream_bound cm d1.catFeatures hbC v h
  have hbound2 : ∀ v ∈ checkSumStream fm d2.floatFeatures ++
      checkSumStream cm d2.catFeatures, v < 4294967296 := by
    intro v hv
    rcases List.mem_append.mp hv with h | h
    · refine checkSumStream_bound fm d2.floatFeatures ?_ v h
      intro i hi u hu
      exact hbF i hi u ((hpermF i hi).mem_iff.mpr hu)
    · refine checkSumStream_bound cm d2.catFeatures ?_ v h
      intro i hi u hu
      exact hbC i hi u ((hpermC i hi).mem_iff.mpr hu)
  have hstreams : checkSumStream fm d1.floatFeatures ++ checkSumStream cm d1.catFeatures =
      checkSumStream fm d2.floatFeatures ++ checkSumStream cm d2.catFeatures := by
    have hm := hinj.2
    calc checkSumStream fm d1.floatFeatures ++ checkSumStream cm d1.catFeatures
        = (checkSumStream fm d1.floatFeatures ++ checkSumStream cm d1.catFeatures).map
            (fun v => v % 4294967296) := by
          rw [List.map_congr_left (fun a ha => Nat.mod_eq_of_lt (hbound1 a ha)),
            List.map_id']
      _ = (checkSumStream fm d2.floatFeatures ++ checkSumStream cm d2.catFeatures).map
            (fun v => v % 4294967296) := hm
      _ = checkSumStream fm d2.floatFeatures ++ checkSumStream cm d2.catFeatures := by
          rw [List.map_congr_left (fun a ha => Nat.mod_eq_of_lt (hbound2 a ha)),
            List.map_id']
  obtain ⟨hSFeq, hSCeq⟩ := List.append_inj hstreams hSF
  rcases hdiff with ⟨i, hi, havail, hne⟩ | ⟨i, hi, havail, hne⟩
  · exact hne (checkSumStream_inj fm d1.floatFeatures d2.floatFeatures hf1 hf2 hlenF
      hSFeq i hi havail)
  · exact hne (checkSumStream_inj cm d1.catFeatures d2.catFeatures hc1 hc2 hlenC
      hSCeq i hi havail)

theorem calcFeaturesCheckSum_det_orderSensitive_witness :
    calcFeaturesCheckSum [(true, 0)] []
        { floatFeatures := [some ⟨0, [1, 2]⟩], catFeatures := [], infoCheckSum := 7 } ≠
      calcFeaturesCheckSum [(true, 0)] []
        { floatFeatures := [some ⟨0, [2, 1]⟩], catFeatures := [], infoCheckSum := 7 } :=
  calcFeaturesCheckSum_det_orderSensitive.2 [(true, 0)] []
    { floatFeatures := [some ⟨0, [1, 2]⟩], catFeatures := [], infoCheckSum := 7 }
    { floatFeatures := [some ⟨0, [2, 1]⟩], catFeatures := [], infoCheckSum := 7 }
    rfl rfl rfl rfl rfl
    (fun i hi => by
      match i with
      | 0 => exact List.Perm.swap 2 1 []
      | i + 1 => simp at hi)
    (fun i hi => by simp at hi)
    (by decide) (fun i hi => by simp at hi)
    (Or.inl ⟨0, by decide, by decide, by decide⟩)

/-- C10 (amended): in the features checksum, every feature position
declared unavailable in the layout contributes exactly one fold of the
constant value 0: the checksum is the fold of the contribution stream
in which an unavailable feature appears as the single element 0 and an
available feature as its decoded values — an unavailable feature is not
simply skipped.  (Identical available data with different availability
patterns does not always yield different checksums; see the
counterexample.) -/
theorem calcFeatureValuesCheckSum_unavailable_contribution
    (ms : List (Bool × Nat)) (cols : List (Option TQuantColumn)) (init : Nat) :
    calcFeatureValuesCheckSum init ms cols =
      (checkSumStream ms cols).foldl UpdateCheckSum init
    ∧ ∀ (flat : Nat) (ms' : List (Bool × Nat)) (cols' : List (Option TQuantColumn))
        (col : Option TQuantColumn),
      checkSumStream ((false, flat) :: ms') (col :: cols') =
        0 :: checkSumStream ms' cols' :=
  ⟨calcFeatureValuesCheckSum_eq_foldl ms cols init, fun _ _ _ _ => rfl⟩

/-- C10 counterexample: two datasets identical in all available data
but with different availability patterns can produce the same features
checksum — a single-row categorical feature with decoded value 0, once
available and once unavailable, contributes the same single fold of 0. -/
theorem checkSum_availability_collision :
    calcFeaturesCheckSum [] [(true, 5)]
        { floatFeatures := [], catFeatures := [some ⟨5, [0]⟩], infoCheckSum := 7 } =
      calcFeaturesCheckSum [] [(false, 5)]
        { floatFeatures := [], catFeatures := [none], infoCheckSum := 7 } := by
  rfl

/-! ### CPU-specialization representation gate -/

/-- Per spec §9, the concrete storage of a quantized column is modelled
as a closed tagged variant: `compressedArray bitsPerKey` is a
`TCompressedValuesHolderImpl` whose packed storage has the given key
width, and `otherStorage` is any other `IQuantizedValuesHolder`
implementation. -/
inductive TColumnStorage where
  | compressedArray (bitsPerKey : Nat) : TColumnStorage
  | otherStorage : TColumnStorage
  deriving DecidableEq, Repr

/-- The dynamic-cast failure message of `CheckIsRequiredType`
(objects.cpp line 733). -/
def notRequiredTypeMsg (featureType : String) (idx : Nat) (requiredTypeName : String) :
    String :=
  "Data." ++ featureType ++ "Features[" ++ toString idx ++ "] is not of type " ++
    requiredTypeName

/-- Modelled from the spec: the failure message of
`CheckIfCanBeInterpretedAsRawArray` (compression.h is not under
`src/`); per spec §4.6 a representation mismatch names the offending
feature index and the required raw width. -/
def cannotInterpretMsg (featureType : String) (idx requiredBits : Nat) : String :=
  "Data." ++ featureType ++ "Features[" ++ toString idx ++
    "] cannot be interpreted as a raw array of " ++ toString requiredBits ++ "-bit values"

/-- Whether a present column has the CPU-required storage kind:
a compressed array whose packed width is the required one
(byte-reinterpretable as the native code width). -/
def conformsCPU (requiredBits : Nat) : TColumnStorage → Bool
  | .compressedArray bits => bits == requiredBits
  | .otherStorage => false

/-- All present columns have the CPU-required storage kind. -/
def allConform (requiredBits : Nat) (data : List (Option TColumnStorage)) : Bool :=
  data.all (fun col =>
    match col with
    | none => true
    | some c => conformsCPU requiredBits c)

/-- The error a nonconforming present column produces at a given
feature index. -/
def requiredTypeError (featureType requiredTypeName : String) (requiredBits idx : Nat) :
    TColumnStorage → CBError
  | .otherStorage => .internalError (notRequiredTypeMsg featureType idx requiredTypeName)
  | .compressedArray _ => .internalError (cannotInterpretMsg featureType idx requiredBits)

/-- `CheckIsRequiredType` (objects.cpp lines 717-738) from feature
index `idx` on: null columns are skipped; a present column must
dynamically be the required compressed-array holder type (else an
internal error naming the feature) and its storage must be
interpretable as a raw array of the required width. -/
def checkIsRequiredTypeFrom (featureType requiredTypeName : String) (requiredBits : Nat) :
    Nat → List (Option TColumnStorage) → Except CBError Unit
  | _, [] => .ok ()
  | idx, none :: rest =>
    checkIsRequiredTypeFrom featureType requiredTypeName requiredBits (idx + 1) rest
  | idx, some c :: rest =>
    match c with
    | .otherStorage =>
      .error (.internalError (notRequiredTypeMsg featureType idx requiredTypeName))
    | .compressedArray bits =>
      if bits ≠ requiredBits then
        .error (.internalError (cannotInterpretMsg featureType idx requiredBits))
      else
        checkIsRequiredTypeFrom featureType requiredTypeName requiredBits (idx + 1) rest

/-- The catch-and-rethrow wrapper of
`TQuantizedForCPUObjectsDataProvider::Check` (objects.cpp lines
753-756): a failure is rethrown with the incompatibility context. -/
def wrapIncompatible : CBError → CBError
  | .validation m =>
    .validation ("Incompatible with TQuantizedForCPUObjectsDataProvider: " ++ m)
  | .internalError m =>
    .internalError ("Incompatible with TQuantizedForCPUObjectsDataProvider: " ++ m)
  | .streamEnd => .streamEnd

/-- `TQuantizedForCPUObjectsDataProvider::Check` (objects.cpp lines
741-757): float columns must be `TQuantizedFloatValuesHolder`s
raw-interpretable as `ui8` (8-bit codes), categorical columns
`TQuantizedCatValuesHolder`s raw-interpretable as `ui32` (32-bit
codes); any failure is wrapped with the provider variant's name. -/
def quantizedForCPUCheck (floatData catData : List (Option TColumnStorage)) :
    Except CBError Unit :=
  match checkIsRequiredTypeFrom "Float" "TQuantizedFloatValuesHolder" 8 0 floatData with
  | .error e => .error (wrapIncompatible e)
  | .ok () =>
    match checkIsRequiredTypeFrom "Categorical" "TQuantizedCatValuesHolder" 32 0 catData with
    | .error e => .error (wrapIncompatible e)
    | .ok () => .ok ()

theorem checkIsRequiredTypeFrom_ok_iff (ft rt : String) (rb : Nat) :
    ∀ (data : List (Option TColumnStorage)) (idx : Nat),
    checkIsRequiredTypeFrom ft rt rb idx data = .ok () ↔ allConform rb data = true := by
  intro data
  induction data with
  | nil => intro idx; simp [checkIsRequiredTypeFrom, allConform]
  | cons col rest ih =>
    intro idx
    match col with
    | none =>
      rw [checkIsRequiredTypeFrom, ih (idx + 1)]
      simp [allConform, List.all_cons]
    | some c =>
      match c with
      | .otherStorage =>
        simp [checkIsRequiredTypeFrom, allConform, List.all_cons, conformsCPU]
      | .compressedArray bits =>
        by_cases hb : bits = rb
        · subst hb
          rw [checkIsRequiredTypeFrom, if_neg (by omega), ih (idx + 1)]
          simp [allConform, List.all_cons, conformsCPU]
        · rw [checkIsRequiredTypeFrom, if_pos hb]
          simp [allConform, List.all_cons, conformsCPU, hb]

theorem checkIsRequiredTypeFrom_firstError (ft rt : String) (rb : Nat) :
    ∀ (data : List (Option TColumnStorage)) (idx i : Nat) (c : TColumnStorage),
    (∀ j, j < i → ∀ c', data.getD j none = some c' → conformsCPU rb c' = true) →
    data.getD i none = some c → conformsCPU rb c = false →
    checkIsRequiredTypeFrom ft rt rb idx data =
      .error (requiredTypeError ft rt rb (idx + i) c) := by
  intro data
  induction data with
  | nil => intro idx i c _ hsome; simp at hsome
  | cons col rest ih =>
    intro idx i c hconf hsome hfail
    match i with
    | 0 =>
      have hcol : col = some c := hsome
      subst hcol
      match c with
      | .otherStorage =>
        rw [checkIsRequiredTypeFrom]
        rfl
      | .compressedArray bits =>
        have hb : bits ≠ rb := by
          rw [conformsCPU] at hfail
          simpa using hfail
        rw [checkIsRequiredTypeFrom, if_pos hb]
        rfl
    | Nat.succ i' =>
      have harith : idx + (i' + 1) = (idx + 1) + i' := by omega
      match col with
      | none =>
        rw [checkIsRequiredTypeFrom, harith]
        exact ih (idx + 1) i' c
          (fun j hj c' hc' => hconf (j + 1) (by omega) c' hc') hsome hfail
      | some c0 =>
        have hc0 : conformsCPU rb c0 = true := hconf 0 (by omega) c0 rfl
        match c0 with
        | .otherStorage => simp [conformsCPU] at hc0
        | .compressedArray bits =>
          have hb : bits = rb := by
            rw [conformsCPU] at hc0
            simpa using hc0
          rw [checkIsRequiredTypeFrom, if_neg (by omega), harith]
          exact ih (idx + 1) i' c
            (fun j hj c' hc' => hconf (j + 1) (by omega) c' hc') hsome hfail

/-- C9: the CPU-representation check succeeds exactly when every
present column of both feature types has the CPU-required storage kind
(compressed storage reinterpretable as 1-byte float codes / 4-byte
categorical codes); the first nonconforming present float column — or
categorical column, once all float columns conform — fails with a
wrapped error naming the provider variant and that feature's index.
The check is a pure function of the column data. -/
theorem quantizedForCPUCheck_gate :
    (∀ floatData catData : List (Option TColumnStorage),
      quantizedForCPUCheck floatData catData = .ok () ↔
        (allConform 8 floatData = true ∧ allConform 32 catData = true))
    ∧ (∀ (floatData catData : List (Option TColumnStorage)) (i : Nat) (c : TColumnStorage),
      (∀ j, j < i → ∀ c', floatData.getD j none = some c' → conformsCPU 8 c' = true) →
      floatData.getD i none = some c → conformsCPU 8 c = false →
      quantizedForCPUCheck floatData catData =
        .error (wrapIncompatible
          (requiredTypeError "Float" "TQuantizedFloatValuesHolder" 8 i c)))
    ∧ (∀ (floatData catData : List (Option TColumnStorage)) (i : Nat) (c : TColumnStorage),
      allConform 8 floatData = true →
      (∀ j, j < i → ∀ c', catData.getD j none = some c' → conformsCPU 32 c' = true) →
      catData.getD i none = some c → conformsCPU 32 c = false →
      quantizedForCPUCheck floatData catData =
        .error (wrapIncompatible
          (requiredTypeError "Categorical" "TQuantizedCatValuesHolder" 32 i c))) := by
  refine ⟨?_, ?_, ?_⟩
  · intro floatData catData
    rw [quantizedForCPUCheck]
    constructor
    · intro h
      rcases hF : checkIsRequiredTypeFrom "Float" "TQuantizedFloatValuesHolder" 8 0 floatData
        with e | u
      · rw [hF] at h
        simp at h
      · obtain ⟨⟩ := u
        rw [hF] at h
        rcases hC : checkIsRequiredTypeFrom "Categorical" "TQuantizedCatValuesHolder" 32 0
          catData with e | u'
        · rw [hC] at h
          simp at h
        · obtain ⟨⟩ := u'
          exact ⟨(checkIsRequiredTypeFrom_ok_iff _ _ 8 floatData 0).mp hF,
            (checkIsRequiredTypeFrom_ok_iff _ _ 32 catData 0).mp hC⟩
    · rintro ⟨hF, hC⟩
      rw [(checkIsRequiredTypeFrom_ok_iff _ _ 8 floatData 0).mpr hF,
        (checkIsRequiredTypeFrom_ok_iff _ _ 32 catData 0).mpr hC]
  · intro floatData catData i c hconf hsome hfail
    rw [quantizedForCPUCheck]
    have hF := checkIsRequiredTypeFrom_firstError "Float" "TQuantizedFloatValuesHolder" 8
      floatData 0 i c hconf hsome hfail
    rw [Nat.zero_add] at hF
    rw [hF]
  · intro floatData catData i c hallF hconf hsome hfail
    rw [quantizedForCPUCheck]
    rw [(checkIsRequiredTypeFrom_ok_iff _ _ 8 floatData 0).mpr hallF]
    have hC := checkIsRequiredTypeFrom_firstError "Categorical" "TQuantizedCatValuesHolder"
      32 catData 0 i c hconf hsome hfail
    rw [Nat.zero_add] at hC
    rw [hC]

theorem quantizedForCPUCheck_gate_witness :
    quantizedForCPUCheck [some (.compressedArray 16)] [] =
      .error (wrapIncompatible
        (requiredTypeError "Float" "TQuantizedFloatValuesHolder" 8 0
          (.compressedArray 16))) :=
  quantizedForCPUCheck_gate.2.1 [some (.compressedArray 16)] [] 0 (.compressedArray 16)
    (fun j hj => absurd hj (by omega)) rfl (by decide)

/-! ### `CheckGroupIds` against an existing grouping -/

/-- The internal-consistency message of `CheckGroupIds` (objects.cpp
lines 55-59) for group number `k`. -/
def endsMismatchMsg (k : Nat) : String :=
  "objectsGrouping and grouping by groupId have different ends for group #" ++ toString k

/-- The scan loop of `NCB::CheckGroupIds` (objects.cpp lines 48-66):
processes the remaining group ids `xs` at index `i` with the current
run value `last`, the current group bounds `cur` (used only when an
existing grouping `og` is supplied) and the distinct values recorded so
far `acc` (`groupGroupIds`).  At each value change, with `og` supplied,
the change index must equal the current group's `End`
(`CB_ENSURE_INTERNAL`), after which the next group's bounds are
fetched. -/
def checkGroupIdsLoop (og : Option TObjectsGrouping) :
    List Nat → Nat → Nat → TGroupBounds → List Nat → Except CBError (List Nat)
  | [], _, _, _, acc => .ok acc
  | x :: xs, i, last, cur, acc =>
    if x ≠ last then
      match og with
      | some grouping =>
        if i ≠ cur.2 then
          .error (.internalError (endsMismatchMsg (acc.length - 1)))
        else
          match getGroup grouping acc.length with
          | .error e => .error e
          | .ok cur2 => checkGroupIdsLoop og xs (i + 1) x cur2 (acc ++ [x])
      | none => checkGroupIdsLoop og xs (i + 1) x cur (acc ++ [x])
    else
      checkGroupIdsLoop og xs (i + 1) last cur acc

/-- `NCB::CheckGroupIds` (objects.cpp lines 18-71): with group ids
present their count must match `objectCount` (validation error); with
an existing grouping also its object count (internal error), and group
0 is fetched before the scan.  The scan checks every run boundary
against the grouping's ends; afterwards the distinct run values are
sorted and checked for adjacent duplicates.  As in
`CreateObjectsGroupingFromGroupIds`, the source reads `groupIdsData[0]`
unconditionally; the empty case is modelled as a validation error. -/
def CheckGroupIds (objectCount : Nat) (groupIds : Option (List Nat))
    (objectsGrouping : Option TObjectsGrouping) : Except CBError Unit :=
  match groupIds with
  | none => .ok ()
  | some g =>
    if g.length ≠ objectCount then .error (.validation "group Ids data size mismatch")
    else
      match objectsGrouping with
      | some grouping =>
        if g.length ≠ getObjectCount grouping then
          .error (.internalError
            "group Ids size is not equal to objectGrouping's object count")
        else
          match getGroup grouping 0 with
          | .error e => .error e
          | .ok cur0 =>
            match g with
            | [] => .error (.validation "empty group Ids")
            | g0 :: rest =>
              match checkGroupIdsLoop (some grouping) rest 1 g0 cur0 [g0] with
              | .error e => .error e
              | .ok ids =>
                if hasAdjacentDup (List.insertionSort (· ≤ ·) ids) then
                  .error (.validation "group Ids are not consecutive")
                else .ok ()
      | none =>
        match g with
        | [] => .error (.validation "empty group Ids")
        | g0 :: rest =>
          match checkGroupIdsLoop none rest 1 g0 (0, 0) [g0] with
          | .error e => .error e
          | .ok ids =>
            if hasAdjacentDup (List.insertionSort (· ≤ ·) ids) then
              .error (.validation "group Ids are not consecutive")
            else .ok ()

theorem checkGroupIdsLoop_skipRun (og : Option TObjectsGrouping) (v : Nat) :
    ∀ (m : Nat) (t : List Nat) (i : Nat) (cur : TGroupBounds) (acc : List Nat),
    checkGroupIdsLoop og (List.replicate m v ++ t) i v cur acc =
      checkGroupIdsLoop og t (i + m) v cur acc := by
  intro m
  induction m with
  | zero => intro t i cur acc; simp
  | succ m ih =>
    intro t i cur acc
    have h1 : checkGroupIdsLoop og (v :: (List.replicate m v ++ t)) i v cur acc =
        checkGroupIdsLoop og (List.replicate m v ++ t) (i + 1) v cur acc := by
      simp [checkGroupIdsLoop]
    rw [List.replicate_succ, List.cons_append, h1, ih]
    have harith : i + 1 + m = i + (m + 1) := by omega
    rw [harith]

theorem runEndsFrom_cons_getD_zero (start v len : Nat) (u : List (Nat × Nat)) :
    (runEndsFrom start ((v, len) :: u)).getD 0 0 = start + len := rfl

theorem runEndsFrom_cons_getD_succ (start v len : Nat) (u : List (Nat × Nat)) (m : Nat) :
    (runEndsFrom start ((v, len) :: u)).getD (m + 1) 0 =
      (runEndsFrom (start + len) u).getD m 0 := rfl

theorem checkLoop_success (bs : List TGroupBounds) :
    ∀ (u : List (Nat × Nat)) (j v len i : Nat) (acc : List Nat),
    acc.length = j + 1 → 1 ≤ len → (∀ q ∈ u, 1 ≤ q.2) →
    List.Chain' (fun p q : Nat × Nat => p.1 ≠ q.1) ((v, len) :: u) →
    j + u.length < bs.length →
    (∀ m, m < u.length →
      (bs.getD (j + m) (0, 0)).2 = (runEndsFrom (i - 1) ((v, len) :: u)).getD m 0) →
    1 ≤ i →
    checkGroupIdsLoop (some (.explicitG bs)) (List.replicate (len - 1) v ++ flattenRuns u)
      i v (bs.getD j (0, 0)) acc = .ok (acc ++ u.map Prod.fst) := by
  intro u
  induction u with
  | nil =>
    intro j v len i acc hacc hlen hul hchain hrange hends hi
    rw [flattenRuns, checkGroupIdsLoop_skipRun, checkGroupIdsLoop]
    simp
  | cons q u' ih =>
    intro j v len i acc hacc hlen hul hchain hrange hends hi
    obtain ⟨y, ly⟩ := q
    have hly : 1 ≤ ly := hul (y, ly) (List.mem_cons_self _ _)
    have hyv : y ≠ v := by
      rw [List.chain'_cons] at hchain
      exact fun h => hchain.1 h.symm
    rw [flattenRuns, checkGroupIdsLoop_skipRun]
    have hrep : List.replicate ly y = y :: List.replicate (ly - 1) y := by
      cases ly with
      | zero => omega
      | succ k => simp [List.replicate_succ]
    rw [hrep, List.cons_append, checkGroupIdsLoop, if_pos hyv]
    have hend0 := hends 0 (by simp)
    rw [Nat.add_zero, runEndsFrom_cons_getD_zero] at hend0
    rw [if_neg (by omega)]
    have hj1 : acc.length < bs.length := by
      rw [hacc]
      simp only [List.length_cons] at hrange
      omega
    have hfetch : getGroup (.explicitG bs) acc.length = .ok (bs.getD acc.length (0, 0)) := by
      rw [getGroup]
      rw [dif_pos hj1, List.getD_eq_getElem _ _ hj1]
    rw [hfetch]
    simp only []
    rw [hacc]
    have hstep := ih (j + 1) y ly (i + (len - 1) + 1) (acc ++ [y])
      (by simp [hacc]) hly (fun p hp => hul p (List.mem_cons_of_mem _ hp))
      hchain.tail
      (by simp only [List.length_cons] at hrange ⊢; omega)
      (fun m hm => by
        have h := hends (m + 1) (by simp only [List.length_cons]; omega)
        rw [runEndsFrom_cons_getD_succ] at h
        have e1 : j + (m + 1) = j + 1 + m := by omega
        have e2 : i - 1 + len = i + (len - 1) + 1 - 1 := by omega
        rw [e1, e2] at h
        exact h)
      (by omega)
    rw [hstep]
    simp

theorem checkLoop_mismatch (bs : List TGroupBounds) :
    ∀ (u : List (Nat × Nat)) (m0 j v len i : Nat) (acc : List Nat),
    acc.length = j + 1 → 1 ≤ len → (∀ q ∈ u, 1 ≤ q.2) →
    List.Chain' (fun p q : Nat × Nat => p.1 ≠ q.1) ((v, len) :: u) →
    m0 < u.length →
    j + m0 < bs.length →
    (∀ m, m < m0 →
      (bs.getD (j + m) (0, 0)).2 = (runEndsFrom (i - 1) ((v, len) :: u)).getD m 0) →
    (bs.getD (j + m0) (0, 0)).2 ≠ (runEndsFrom (i - 1) ((v, len) :: u)).getD m0 0 →
    1 ≤ i →
    checkGroupIdsLoop (some (.explicitG bs)) (List.replicate (len - 1) v ++ flattenRuns u)
      i v (bs.getD j (0, 0)) acc = .error (.internalError (endsMismatchMsg (j + m0))) := by
  intro u
  induction u with
  | nil => intro m0 j v len i acc _ _ _ _ hm0; simp at hm0
  | cons q u' ih =>
    intro m0 j v len i acc hacc hlen hul hchain hm0 hrange hmatch hmis hi
    obtain ⟨y, ly⟩ := q
    have hly : 1 ≤ ly := hul (y, ly) (List.mem_cons_self _ _)
    have hyv : y ≠ v := by
      rw [List.chain'_cons] at hchain
      exact fun h => hchain.1 h.symm
    rw [flattenRuns, checkGroupIdsLoop_skipRun]
    have hrep : List.replicate ly y = y :: List.replicate (ly - 1) y := by
      cases ly with
      | zero => omega
      | succ k => simp [List.replicate_succ]
    rw [hrep, List.cons_append, checkGroupIdsLoop, if_pos hyv]
    match m0, hm0, hrange, hmatch, hmis with
    | 0, _, _, _, hmis =>
      rw [Nat.add_zero, runEndsFrom_cons_getD_zero] at hmis
      rw [if_pos (by omega)]
      rw [hacc]
      simp
    | Nat.succ m0', hm0, hrange, hmatch, hmis =>
      have hend0 := hmatch 0 (by omega)
      rw [Nat.add_zero, runEndsFrom_cons_getD_zero] at hend0
      rw [if_neg (by omega)]
      have hj1 : acc.length < bs.length := by
        rw [hacc]
        omega
      have hfetch : getGroup (.explicitG bs) acc.length =
          .ok (bs.getD acc.length (0, 0)) := by
        rw [getGroup]
        rw [dif_pos hj1, List.getD_eq_getElem _ _ hj1]
      rw [hfetch]
      simp only []
      rw [hacc]
      have hstep := ih m0' (j + 1) y ly (i + (len - 1) + 1) (acc ++ [y])
        (by simp [hacc]) hly (fun p hp => hul p (List.mem_cons_of_mem _ hp))
        hchain.tail
        (by simp only [List.length_cons] at hm0; omega)
        (by omega)
        (fun m hm => by
          have h := hmatch (m + 1) (by omega)
          rw [runEndsFrom_cons_getD_succ] at h
          have e1 : j + (m + 1) = j + 1 + m := by omega
          have e2 : i - 1 + len = i + (len - 1) + 1 - 1 := by omega
          rw [e1, e2] at h
          exact h)
        (by
          have h := hmis
          rw [runEndsFrom_cons_getD_succ] at h
          have e1 : j + (m0' + 1) = j + 1 + m0' := by omega
          have e2 : i - 1 + len = i + (len - 1) + 1 - 1 := by omega
          rw [e1, e2] at h
          exact h)
        (by omega)
      rw [hstep]
      have e1 : j + 1 + m0' = j + (m0' + 1) := by omega
      rw [e1]

theorem runEndsFrom_lt_total : ∀ (rs : List (Nat × Nat)) (start m : Nat),
    (∀ p ∈ rs, 0 < p.2) → m + 1 < rs.length →
    (runEndsFrom start rs).getD m 0 < start + (rs.map Prod.snd).sum := by
  intro rs
  induction rs with
  | nil => intro start m _ hm; simp at hm
  | cons q u ih =>
    intro start m hpos hm
    obtain ⟨v, len⟩ := q
    match m with
    | 0 =>
      rw [runEndsFrom_cons_getD_zero]
      match u with
      | [] => simp at hm
      | q' :: u'' =>
        have h1 : 0 < q'.2 :=
          hpos q' (List.mem_cons_of_mem _ (List.mem_cons_self _ _))
        simp only [List.map_cons, List.sum_cons]
        omega
    | Nat.succ m' =>
      rw [runEndsFrom_cons_getD_succ]
      have hrec := ih (start + len) m' (fun p hp => hpos p (List.mem_cons_of_mem _ hp))
        (by simp only [List.length_cons] at hm; omega)
      simp only [List.map_cons, List.sum_cons]
      omega

theorem partition_next_group : ∀ (bs : List TGroupBounds) (n start j : Nat),
    isContiguousPartition n start bs = true → j < bs.length →
    (bs.getD j (0, 0)).2 < n → j + 1 < bs.length := by
  intro bs
  induction bs with
  | nil => intro n start j _ hj; simp at hj
  | cons q rest ih =>
    intro n start j hcp hj hlt
    obtain ⟨b, e⟩ := q
    rw [isContiguousPartition] at hcp
    simp only [Bool.and_eq_true, beq_iff_eq, decide_eq_true_eq] at hcp
    obtain ⟨⟨hb, hbe⟩, hrest⟩ := hcp
    match j with
    | 0 =>
      match rest with
      | [] =>
        rw [isContiguousPartition] at hrest
        simp only [beq_iff_eq] at hrest
        simp only [List.getD_cons_zero] at hlt
        omega
      | _ :: _ => simp
    | Nat.succ j' =>
      have hrec := ih n e j' hrest (by simpa using hj) (by simpa using hlt)
      simpa using hrec

theorem partition_nonempty (bs : List TGroupBounds) (n : Nat) (hn : 1 ≤ n)
    (hcp : isContiguousPartition n 0 bs = true) : 0 < bs.length := by
  match bs with
  | [] =>
    rw [isContiguousPartition] at hcp
    simp only [beq_iff_eq] at hcp
    omega
  | _ :: _ => simp

/-- C7: when `CheckGroupIds` gets both a group-identifier sequence and
an existing grouping over the same object count (the grouping a valid
contiguous partition of `[0, n)`): if every run boundary of the
identifier sequence coincides exactly with the end of the corresponding
group, the scan raises no internal-consistency error (the call succeeds
or fails only with the separate duplicate-id user-validation error);
and at the first boundary mismatch it fails with the
internal-consistency error naming that group — an error kind
distinguished from user input-validation errors. -/
theorem checkGroupIds_boundary_consistency (n : Nat) (bs : List TGroupBounds)
    (g : List Nat) (hglen : g.length = n) (hne : g ≠ [])
    (hvalid : isContiguousPartition n 0 bs = true)
    (hcount : getObjectCount (.explicitG bs) = n) :
    ((∀ m, m + 1 < (splitRuns g).length →
        (bs.getD m (0, 0)).2 = (runEndsFrom 0 (splitRuns g)).getD m 0) →
      CheckGroupIds n (some g) (some (.explicitG bs)) = .ok () ∨
        CheckGroupIds n (some g) (some (.explicitG bs)) =
          .error (.validation "group Ids are not consecutive"))
    ∧ (∀ m0, m0 + 1 < (splitRuns g).length →
      (∀ m, m < m0 → (bs.getD m (0, 0)).2 = (runEndsFrom 0 (splitRuns g)).getD m 0) →
      (bs.getD m0 (0, 0)).2 ≠ (runEndsFrom 0 (splitRuns g)).getD m0 0 →
      CheckGroupIds n (some g) (some (.explicitG bs)) =
        .error (.internalError (endsMismatchMsg m0))) := by
  obtain ⟨g0, rest, rfl⟩ : ∃ g0 rest, g = g0 :: rest := by
    cases g with
    | nil => exact absurd rfl hne
    | cons a l => exact ⟨a, l, rfl⟩
  have hn1 : 1 ≤ n := by
    rw [← hglen]
    simp
  have hbs0 : 0 < bs.length := partition_nonempty bs n hn1 hvalid
  obtain ⟨l0, u, hsp, hrest_decomp⟩ :
      ∃ l0 u, splitRuns (g0 :: rest) = (g0, l0) :: u ∧
        rest = List.replicate (l0 - 1) g0 ++ flattenRuns u := by
    refine ⟨(takeRun g0 rest).1.length + 1, splitRuns (takeRun g0 rest).2,
      splitRuns_cons g0 rest, ?_⟩
    rw [Nat.add_sub_cancel]
    conv_lhs => rw [← takeRun_append g0 rest]
    rw [splitRuns_flatten]
    congr 1
    exact takeRun_fst_eq_replicate g0 rest
  have hposAll := splitRuns_pos_len (g0 :: rest)
  have hl0 : 1 ≤ l0 := hposAll (g0, l0) (by rw [hsp]; exact List.mem_cons_self _ _)
  have hpos_u : ∀ q ∈ u, 1 ≤ q.2 := by
    intro q hq
    exact hposAll q (by rw [hsp]; exact List.mem_cons_of_mem _ hq)
  have hchain0 := splitRuns_chain_ne (g0 :: rest)
  rw [hsp] at hchain0
  have hk : (splitRuns (g0 :: rest)).length = u.length + 1 := by
    rw [hsp]
    simp
  have hends_lt : ∀ m, m + 1 < (splitRuns (g0 :: rest)).length →
      (runEndsFrom 0 (splitRuns (g0 :: rest))).getD m 0 < n := by
    intro m hm
    have h4 := runEndsFrom_lt_total (splitRuns (g0 :: rest)) 0 m hposAll hm
    rw [splitRuns_total_length] at h4
    simp only [Nat.zero_add] at h4
    rw [hglen] at h4
    exact h4
  have hfetch0 : getGroup (.explicitG bs) 0 = .ok (bs.getD 0 (0, 0)) := by
    rw [getGroup]
    rw [dif_pos hbs0, List.getD_eq_getElem _ _ hbs0]
  constructor
  · intro hmatch
    have hrangeAll : ∀ m, m ≤ u.length → m < bs.length := by
      intro m
      induction m with
      | zero => intro _; exact hbs0
      | succ m ihm =>
        intro hm
        have h1 : m < bs.length := ihm (by omega)
        have h2 := hmatch m (by omega)
        have h3 := hends_lt m (by omega)
        exact partition_next_group bs n 0 m hvalid h1 (by omega)
    have hloopEq : checkGroupIdsLoop (some (.explicitG bs)) rest 1 g0
        (bs.getD 0 (0, 0)) [g0] = .ok ([g0] ++ u.map Prod.fst) := by
      conv_lhs => rw [hrest_decomp]
      exact checkLoop_success bs u 0 g0 l0 1 [g0] rfl hl0 hpos_u hchain0
        (by have := hrangeAll u.length le_rfl; omega)
        (fun m hm => by
          have h := hmatch m (by omega)
          rw [hsp] at h
          simpa using h)
        (by omega)
    rw [CheckGroupIds]
    rw [if_neg (by omega)]
    rw [if_neg (by omega)]
    rw [hfetch0]
    simp only []
    rw [hloopEq]
    simp only []
    rcases Bool.eq_false_or_eq_true
        (hasAdjacentDup (List.insertionSort (· ≤ ·) ([g0] ++ u.map Prod.fst)))
      with ht | hf
    · right
      rw [if_pos ht]
    · left
      rw [if_neg (by rw [hf]; exact Bool.false_ne_true)]
  · intro m0 hm0 hmatch hmis
    have hrangeAll : ∀ m, m ≤ m0 → m < bs.length := by
      intro m
      induction m with
      | zero => intro _; exact hbs0
      | succ m ihm =>
        intro hm
        have h1 : m < bs.length := ihm (by omega)
        have h2 := hmatch m (by omega)
        have h3 := hends_lt m (by omega)
        exact partition_next_group bs n 0 m hvalid h1 (by omega)
    have hloopEq : checkGroupIdsLoop (some (.explicitG bs)) rest 1 g0
        (bs.getD 0 (0, 0)) [g0] = .error (.internalError (endsMismatchMsg m0)) := by
      conv_lhs => rw [hrest_decomp]
      have hres := checkLoop_mismatch bs u m0 0 g0 l0 1 [g0] rfl hl0 hpos_u hchain0
        (by omega)
        (by have := hrangeAll m0 le_rfl; omega)
        (fun m hm => by
          have h := hmatch m hm
          rw [hsp] at h
          simpa using h)
        (by
          rw [hsp] at hmis
          simpa using hmis)
        (by omega)
      simpa using hres
    rw [CheckGroupIds]
    rw [if_neg (by omega)]
    rw [if_neg (by omega)]
    rw [hfetch0]
    simp only []
    rw [hloopEq]

theorem checkGroupIds_boundary_consistency_witness :
    CheckGroupIds 3 (some [4, 4, 7]) (some (.explicitG [(0, 1), (1, 3)])) =
      .error (.internalError (endsMismatchMsg 0)) :=
  (checkGroupIds_boundary_consistency 3 [(0, 1), (1, 3)] [4, 4, 7]
    (by decide) (by decide) (by decide) (by decide)).2 0 (by decide)
    (fun m hm => absurd hm (by omega)) (by decide)
